import Mathlib

/-!
Verification of the term-resolution and rename-planning engine of
`translate_names.py`: dictionary matching with longest-match-first
priority, fallback translation of remaining source-script runs, name
normalization, and the rename loop.  Text is modelled as `List Char`;
the translator is an explicit function parameter.
-/

namespace TranslateNames

set_option maxRecDepth 4000000
set_option maxHeartbeats 4000000

/-- `[一-鿿]` character class used by `contains_chinese` and
`extract_chinese_segments` in the source. -/
def isChineseChar (c : Char) : Bool := 0x4e00 ≤ c.toNat && c.toNat ≤ 0x9fff

/-- `contains_chinese`: `re.search(r'[一-鿿]', text)` succeeds. -/
def contains_chinese (text : List Char) : Bool := text.any isChineseChar

/-! ### Stable sorting

Python's `sorted` is a stable sort; we model it with a stable insertion
sort: an element is inserted before the first element it compares `le`
to, hence after all earlier elements with an equal key. -/

/-- Insert `x` before the first element `y` with `le x y`. -/
def insertBy (le : α → α → Bool) (x : α) : List α → List α
  | [] => [x]
  | y :: ys => if le x y then x :: y :: ys else y :: insertBy le x ys

/-- Stable insertion sort. -/
def sortBy (le : α → α → Bool) : List α → List α
  | [] => []
  | x :: xs => insertBy le x (sortBy le xs)

/-! ### The dictionary and the matcher (`translate_with_dictionary`, first pass) -/

/-- The DSP term dictionary from the source, as (sourceTerm, targetTerm)
pairs in source insertion order (keys are unique in the source). -/
def DSP_DICTIONARY : List (String × String) := [
  ("铁矿", "Iron-Ore"),
  ("铜矿", "Copper-Ore"),
  ("石矿", "Stone"),
  ("煤矿", "Coal"),
  ("煤", "Coal"),
  ("硅石", "Silicon-Ore"),
  ("钛矿", "Titanium-Ore"),
  ("水", "Water"),
  ("原油", "Crude-Oil"),
  ("氢", "Hydrogen"),
  ("重氢", "Deuterium"),
  ("氘", "Deuterium"),
  ("反物质", "Antimatter"),
  ("临界光子", "Critical-Photon"),
  ("核心素", "Core-Element"),
  ("金伯利矿石", "Kimberlite-Ore"),
  ("可燃冰", "Fire-Ice"),
  ("木材", "Log"),
  ("有机晶体", "Organic-Crystal"),
  ("植物燃料", "Plant-Fuel"),
  ("硫酸", "Sulfuric-Acid"),
  ("单极磁石", "Unipolar-Magnet"),
  ("光栅石", "Grating-Crystal"),
  ("刺笋结晶", "Spiniform-Stalagmite-Crystal"),
  ("刺笋", "Spiniform-Stalagmite"),
  ("分形硅石", "Fractal-Silicon"),
  ("铁块", "Iron-Ingot"),
  ("铜块", "Copper-Ingot"),
  ("石材", "Stone-Brick"),
  ("高能石墨", "Energetic-Graphite"),
  ("高纯硅块", "High-Purity-Silicon"),
  ("晶格硅", "High-Purity-Silicon"),
  ("钛块", "Titanium-Ingot"),
  ("钛合金", "Titanium-Alloy"),
  ("精炼油", "Refined-Oil"),
  ("钢材", "Steel"),
  ("电路板", "Circuit-Board"),
  ("棱镜", "Prism"),
  ("电动机", "Electric-Motor"),
  ("微晶元件", "Microcrystalline-Component"),
  ("钛晶石", "Titanium-Crystal"),
  ("碳纳米管", "Carbon-Nanotube"),
  ("粒子宽带", "Particle-Broadband"),
  ("齿轮", "Gear"),
  ("等离子激发器", "Plasma-Exciter"),
  ("光子合并器", "Photon-Combiner"),
  ("电磁涡轮", "Electromagnetic-Turbine"),
  ("处理器", "Processor"),
  ("卡西米尔晶体", "Casimir-Crystal"),
  ("钛化玻璃", "Titanium-Glass"),
  ("位面过滤器", "Plane-Filter"),
  ("量子芯片", "Quantum-Chip"),
  ("引擎", "Engine"),
  ("推进器", "Thruster"),
  ("加力推进器", "Reinforced-Thruster"),
  ("超级磁场环", "Super-Magnetic-Ring"),
  ("粒子容器", "Particle-Container"),
  ("奇异物质", "Strange-Matter"),
  ("玻璃", "Glass"),
  ("磁铁", "Magnet"),
  ("磁线圈", "Magnetic-Coil"),
  ("金刚石", "Diamond"),
  ("石墨烯", "Graphene"),
  ("硅基神经元", "Silicon-based-Neuron"),
  ("物质重组器", "Matter-Recombinator"),
  ("能量碎片", "Energy-Shard"),
  ("负熵奇点", "Negentropy-Singularity"),
  ("增产剂", "Proliferator"),
  ("物流运输机", "Logistics-Bot"),
  ("物流运输船", "Logistics-Vessel"),
  ("星际物流运输船", "Logistics-Vessel"),
  ("空间翘曲器", "Space-Warper"),
  ("翘曲器", "Space-Warper"),
  ("引力透镜", "Graviton-Lens"),
  ("地基", "Foundation"),
  ("太阳帆", "Solar-Sail"),
  ("框架材料", "Frame-Material"),
  ("戴森球组件", "Dyson-Sphere-Component"),
  ("小型运载火箭", "Small-Carrier-Rocket"),
  ("运载火箭", "Carrier-Rocket"),
  ("戴森球", "Dyson-Sphere"),
  ("氢燃料棒", "Hydrogen-Fuel-Rod"),
  ("液氢燃料棒", "Hydrogen-Fuel-Rod"),
  ("氘核燃料棒", "Deuteron-Fuel-Rod"),
  ("反物质燃料棒", "Antimatter-Fuel-Rod"),
  ("奇异湮灭燃料棒", "Strange-Annihilation-Fuel-Rod"),
  ("燃料棒", "Fuel-Rod"),
  ("电磁矩阵", "Electromagnetic-Matrix"),
  ("能量矩阵", "Energy-Matrix"),
  ("结构矩阵", "Structure-Matrix"),
  ("信息矩阵", "Information-Matrix"),
  ("引力矩阵", "Gravity-Matrix"),
  ("宇宙矩阵", "Universe-Matrix"),
  ("黑雾矩阵", "Dark-Fog-Matrix"),
  ("矩阵", "Matrix"),
  ("蓝糖", "Electromagnetic-Matrix"),
  ("红糖", "Energy-Matrix"),
  ("黄糖", "Structure-Matrix"),
  ("紫糖", "Information-Matrix"),
  ("绿糖", "Gravity-Matrix"),
  ("白糖", "Universe-Matrix"),
  ("彩糖", "Science-Matrix"),
  ("特斯拉塔", "Tesla-Tower"),
  ("无线输电塔", "Wireless-Power-Tower"),
  ("输电塔", "Power-Tower"),
  ("卫星配电站", "Satellite-Substation"),
  ("风力涡轮机", "Wind-Turbine"),
  ("风电", "Wind-Turbine"),
  ("风能", "Wind-Power"),
  ("火力发电厂", "Thermal-Power-Plant"),
  ("火力发电", "Thermal-Power"),
  ("火电", "Thermal-Power"),
  ("火力", "Thermal-Power"),
  ("太阳能板", "Solar-Panel"),
  ("太阳能", "Solar-Power"),
  ("地热发电站", "Geothermal-Power-Station"),
  ("地热发电", "Geothermal-Power"),
  ("微型聚变发电站", "Mini-Fusion-Power-Station"),
  ("聚变发电", "Fusion-Power"),
  ("核电", "Nuclear-Power"),
  ("能量枢纽", "Energy-Exchanger"),
  ("蓄电器", "Accumulator"),
  ("满蓄电器", "Full-Accumulator"),
  ("射线接收站", "Ray-Receiver"),
  ("人造恒星", "Artificial-Star"),
  ("小太阳", "Artificial-Star"),
  ("发电", "Power-Generation"),
  ("传送带", "Conveyor-Belt"),
  ("四向分流器", "Splitter"),
  ("分流器", "Splitter"),
  ("自动集装机", "Automatic-Piler"),
  ("流速监测器", "Traffic-Monitor"),
  ("流速计", "Traffic-Monitor"),
  ("储物仓", "Storage"),
  ("箱子", "Storage"),
  ("仓储", "Storage"),
  ("储液罐", "Storage-Tank"),
  ("物流配送器", "Logistics-Distributor"),
  ("行星内物流运输站", "Planetary-Logistics-Station"),
  ("星际物流运输站", "Interstellar-Logistics-Station"),
  ("物流塔", "Logistics-Station"),
  ("物流站", "Logistics-Station"),
  ("轨道采集器", "Orbital-Collector"),
  ("分拣器", "Sorter"),
  ("集装分拣器", "Pile-Sorter"),
  ("充电", "Charging"),
  ("采矿机", "Mining-Machine"),
  ("大型采矿机", "Advanced-Mining-Machine"),
  ("矿机", "Mining-Machine"),
  ("采矿", "Mining"),
  ("抽水站", "Water-Pump"),
  ("抽水机", "Water-Pump"),
  ("原油萃取站", "Oil-Extractor"),
  ("原油精炼厂", "Oil-Refinery"),
  ("分馏塔", "Fractionator"),
  ("分馏", "Fractionation"),
  ("电弧熔炉", "Arc-Smelter"),
  ("熔炉", "Smelter"),
  ("位面熔炉", "Plane-Smelter"),
  ("负熵熔炉", "Negentropy-Smelter"),
  ("制造台", "Assembling-Machine"),
  ("重组式制造台", "Re-composing-Assembler"),
  ("矩阵研究站", "Matrix-Lab"),
  ("研究站", "Lab"),
  ("自演化研究站", "Self-evolution-Lab"),
  ("喷涂机", "Spray-Coater"),
  ("化工厂", "Chemical-Plant"),
  ("量子化工厂", "Quantum-Chemical-Plant"),
  ("微型粒子对撞机", "Miniature-Particle-Collider"),
  ("粒子对撞机", "Particle-Collider"),
  ("电磁轨道弹射器", "EM-Rail-Ejector"),
  ("弹射器", "EM-Rail-Ejector"),
  ("垂直发射井", "Vertical-Launching-Silo"),
  ("发射井", "Launching-Silo"),
  ("高斯机枪塔", "Gauss-Turret"),
  ("导弹防御塔", "Missile-Turret"),
  ("聚爆加农炮", "Implosion-Cannon"),
  ("激光塔", "Laser-Turret"),
  ("等离子炮塔", "Plasma-Turret"),
  ("战场分析基站", "Battlefield-Analysis-Base"),
  ("干扰塔", "Jammer-Tower"),
  ("信号塔", "Signal-Tower"),
  ("行星护盾发生器", "Planetary-Shield-Generator"),
  ("黑雾", "Dark-Fog"),
  ("蓝图", "Blueprint"),
  ("蓝图包", "Blueprint-Book"),
  ("新蓝图", "New-Blueprint"),
  ("开荒", "Early-Game"),
  ("前期", "Early-Game"),
  ("中期", "Mid-Game"),
  ("后期", "Late-Game"),
  ("大后期", "End-Game"),
  ("全流程", "Full-Playthrough"),
  ("全球", "Global"),
  ("赤道", "Equator"),
  ("极地", "Polar"),
  ("堆叠", "Stacked"),
  ("无带", "Belt-Free"),
  ("有带", "With-Belt"),
  ("黑盒", "Black-Box"),
  ("超市", "Mall"),
  ("建筑超市", "Building-Mall"),
  ("原矿", "Raw-Ore"),
  ("模组", "Mod"),
  ("模块", "Module"),
  ("艺术", "Art"),
  ("音乐", "Music"),
  ("过期", "Expired"),
  ("仙术", "Exploit"),
  ("垃圾桶", "Garbage-Disposal"),
  ("其它", "Other"),
  ("其他", "Other"),
  ("说明", "Instructions"),
  ("简介", "Introduction"),
  ("注释", "Notes"),
  ("使用", "Usage"),
  ("产量", "Output"),
  ("层", "Layer"),
  ("版本", "Version"),
  ("节点", "Node"),
  ("最密", "Densest"),
  ("极密", "Ultra-Dense"),
  ("密铺", "Dense-Tile"),
  ("可扩展", "Expandable"),
  ("低纬度", "Low-Latitude"),
  ("高纬度", "High-Latitude"),
  ("分布式", "Distributed"),
  ("配套", "Supporting"),
  ("设施", "Facilities"),
  ("建造", "Construction"),
  ("生产", "Production"),
  ("制造", "Manufacturing"),
  ("发射", "Launch"),
  ("透镜", "Lens"),
  ("锅盖", "Ray-Receiver")]

/-- The dictionary with source and target terms as character lists. -/
def dspDict : List (List Char × List Char) :=
  DSP_DICTIONARY.map (fun p => (p.1.toList, p.2.toList))

/-- `sorted(DSP_DICTIONARY.keys(), key=len, reverse=True)`: entries in
descending key length, ties in insertion order (keys are unique, so
sorting the pairs is the same as sorting the keys and looking each key
up afterwards). -/
def sortTermsDesc (dict : List (List Char × List Char)) : List (List Char × List Char) :=
  sortBy (fun a b => decide (b.1.length ≤ a.1.length)) dict

/-- `result.find(term, i) == i`: `term` occurs in `s` at offset `i`. -/
def occAt (term s : List Char) (i : Nat) : Bool :=
  (s.drop i).take term.length == term

/-- All occurrence offsets of `term` in `s`, ascending: the source's
`while` loop over `result.find(term, start)` with `start = idx + 1`
enumerates exactly these. -/
def occurrencePositions (term s : List Char) : List Nat :=
  (List.range s.length).filter (occAt term s)

/-- `not (end <= m_start or idx >= m_end)`: the candidate range
`[i, e)` shares an offset with the accepted span `m`. -/
def overlapsRange (i e : Nat) (m : Nat × Nat × List Char) : Bool :=
  !(decide (e ≤ m.1) || decide (m.2.1 ≤ i))

/-- One step of the first pass: accept occurrence `i` of a term of
length `tlen` with replacement `rep` unless it overlaps an already
accepted span. -/
def addOccurrence (rep : List Char) (tlen : Nat) (acc : List (Nat × Nat × List Char))
    (i : Nat) : List (Nat × Nat × List Char) :=
  if acc.any (overlapsRange i (i + tlen)) then acc else acc ++ [(i, i + tlen, rep)]

/-- The inner `while` loop for one dictionary entry `p`: scan all its
occurrences left to right and accept the non-overlapping ones. -/
def addTermOccurrences (s : List Char) (acc : List (Nat × Nat × List Char))
    (p : List Char × List Char) : List (Nat × Nat × List Char) :=
  (occurrencePositions p.1 s).foldl (fun a i => addOccurrence p.2 p.1.length a i) acc

/-- First pass of `translate_with_dictionary`: for each dictionary entry in
the given order, scan all its occurrences left to right and accept the
non-overlapping ones, in discovery order. -/
def firstPass (dict : List (List Char × List Char)) (s : List Char) :
    List (Nat × Nat × List Char) :=
  dict.foldl (addTermOccurrences s) []

/-- `matched_ranges` after the final `sort(key=lambda x: x[0])`:
the accepted spans sorted ascending by start offset. -/
def matchedRanges (dict : List (List Char × List Char)) (s : List Char) :
    List (Nat × Nat × List Char) :=
  sortBy (fun a b => decide (a.1 ≤ b.1)) (firstPass (sortTermsDesc dict) s)

/-! ### Chinese segments and the fallback translator (`translate_remaining_chinese`) -/

/-- Whitespace, for Python's `\s` (modelled by Lean's `Char.isWhitespace`;
the exact class does not matter to any claim). -/
def isWsChar (c : Char) : Bool := c.isWhitespace

/-- Python's `\w` (Unicode word characters), modelled as ASCII
alphanumerics, underscore and the CJK block; the exact class does not
matter to any claim. -/
def isWordChar (c : Char) : Bool := c.isAlphanum || c == '_' || isChineseChar c

/-- The allowed output charset `[\w\-.]` of the cleanup in
`translate_remaining_chinese`. -/
def isAllowedChar (c : Char) : Bool := isWordChar c || c == '-' || c == '.'

/-- Python `str.strip`-style removal of `p`-characters at both ends. -/
def stripChars (p : Char → Bool) (l : List Char) : List Char :=
  List.rdropWhile p (l.dropWhile p)

/-- `re.sub(r'\s+', '-', s)`: every maximal whitespace run becomes a
single hyphen. -/
def collapseWsRuns : List Char → List Char
  | [] => []
  | [a] => if isWsChar a then ['-'] else [a]
  | a :: b :: rest =>
    if isWsChar a then
      if isWsChar b then collapseWsRuns (b :: rest) else '-' :: collapseWsRuns (b :: rest)
    else a :: collapseWsRuns (b :: rest)

/-- The cleanup applied to every translator result in
`translate_remaining_chinese`: `strip()`, then `re.sub(r'\s+', '-')`,
then `re.sub(r'[^\w\-.]', '')`. -/
def cleanTranslated (s : List Char) : List Char :=
  (collapseWsRuns (stripChars isWsChar s)).filter isAllowedChar

/-- `re.finditer(r'[一-鿿]+', text)` with `i` the offset of the scan
start: the maximal runs of Chinese characters with their half-open
offset ranges, left to right.  (A run is extended on the left when the
head character is Chinese and the next run starts immediately after
it.) -/
def extractSegs : List Char → Nat → List (List Char × Nat × Nat)
  | [], _ => []
  | c :: rest, i =>
    let segs := extractSegs rest (i + 1)
    if isChineseChar c then
      match segs with
      | (run, s, e) :: tail =>
        if s = i + 1 then (c :: run, i, e) :: tail
        else ([c], i, i + 1) :: (run, s, e) :: tail
      | [] => [([c], i, i + 1)]
    else segs

/-- `extract_chinese_segments`: `[(m.group(), m.start(), m.end()) for m
in re.finditer(r'[一-鿿]+', text)]`. -/
def extract_chinese_segments (text : List Char) : List (List Char × Nat × Nat) :=
  extractSegs text 0

/-- `result[:start] + replacement + result[end:]`. -/
def spliceRange (res : List Char) (s e : Nat) (rep : List Char) : List Char :=
  res.take s ++ rep ++ res.drop e

/-- `translate_remaining_chinese`: substitute the cleaned translation of
each Chinese segment in place, processing the segments in reverse order
(`for chinese, start, end in reversed(segments)`), which is exactly a
right fold over the segment list.  With no segments the text is
returned unchanged. -/
def translate_remaining_chinese (tr : List Char → List Char) (text : List Char) : List Char :=
  (extract_chinese_segments text).foldr
    (fun seg res => spliceRange res seg.2.1 seg.2.2 (cleanTranslated (tr seg.1))) text

/-- Modelled from the spec (§4.3 gap resolution), for the refinement
claim C7: decompose the text left to right; each maximal contiguous
run of source-script characters is translated and cleaned, every other
character is kept in place. -/
def substSpec (tr : List Char → List Char) : List Char → List Char
  | [] => []
  | c :: rest =>
    if h : isChineseChar c then
      cleanTranslated (tr (List.takeWhile isChineseChar (c :: rest)))
        ++ substSpec tr (List.dropWhile isChineseChar (c :: rest))
    else c :: substSpec tr rest
termination_by l => l.length
decreasing_by
  · rw [List.dropWhile_cons, if_pos h]
    exact Nat.lt_succ_of_le ((List.dropWhile_suffix _).sublist.length_le)
  · simp

/-! ### `translate_with_dictionary`: building the result -/

/-- The loop over `matched_ranges` in `translate_with_dictionary`,
carrying `last_end`: the gap before each match is translated when it
still contains Chinese, then the replacement is appended; after the
last match the remaining tail is treated the same way.  (The source
skips appending empty gap strings; appending `[]` is the identity, so
the built string is the same.) -/
def buildParts (tr : List Char → List Char) (s : List Char) :
    List (Nat × Nat × List Char) → Nat → List Char
  | [], lastEnd =>
    let after := s.drop lastEnd
    if contains_chinese after then translate_remaining_chinese tr after else after
  | (st, en, rep) :: rest, lastEnd =>
    let before := (s.drop lastEnd).take (st - lastEnd)
    (if contains_chinese before then translate_remaining_chinese tr before else before)
      ++ rep ++ buildParts tr s rest en

/-- `translate_with_dictionary`: dictionary matches first, gaps through
the fallback translator; with no matches at all the whole string goes
through `translate_remaining_chinese`. -/
def translate_with_dictionary (dict : List (List Char × List Char))
    (tr : List Char → List Char) (s : List Char) : List Char :=
  let ranges := matchedRanges dict s
  if ranges.isEmpty then translate_remaining_chinese tr s
  else buildParts tr s ranges 0

/-! ### Translator-call instrumentation

The arguments handed to the external translator are determined by the
text alone (segments and gaps are computed before any call), so they
can be computed separately from the result; these definitions list the
calls made by the corresponding functions above, in source order of the
gaps. -/

/-- Arguments passed to the translator by `translate_remaining_chinese`. -/
def remCalls (text : List Char) : List (List Char) :=
  (extract_chinese_segments text).map (fun seg => seg.1)

/-- Arguments passed to the translator by the `buildParts` loop. -/
def buildPartsCalls (s : List Char) :
    List (Nat × Nat × List Char) → Nat → List (List Char)
  | [], lastEnd =>
    let after := s.drop lastEnd
    if contains_chinese after then remCalls after else []
  | (st, en, _) :: rest, lastEnd =>
    let before := (s.drop lastEnd).take (st - lastEnd)
    (if contains_chinese before then remCalls before else []) ++ buildPartsCalls s rest en

/-- Arguments passed to the translator by `translate_with_dictionary`. -/
def dictCalls (dict : List (List Char × List Char)) (s : List Char) : List (List Char) :=
  let ranges := matchedRanges dict s
  if ranges.isEmpty then remCalls s else buildPartsCalls s ranges 0

/-! ### `translate_name`: stem/suffix split and normalization -/

/-- `name.rfind('.')` as an `Option`. -/
def lastDotIdx (name : List Char) : Option Nat :=
  ((List.range name.length).filter (fun i => name.getD i ' ' == '.')).getLast?

/-- The `stem`/`suffix` split of `pathlib.PurePath` for a plain name:
the suffix is `name[i:]` for the last dot at `0 < i < len(name) - 1`,
else empty (`stem = path.stem if path.suffix else name` in the
source). -/
def splitName (name : List Char) : List Char × List Char :=
  match lastDotIdx name with
  | some i =>
    if 0 < i ∧ i < name.length - 1 then (name.take i, name.drop i) else (name, [])
  | none => (name, [])

/-- `re.sub(r'-+', '-', s)`: collapse every run of hyphens to one. -/
def collapseDashes : List Char → List Char
  | [] => []
  | [a] => [a]
  | a :: b :: rest =>
    if a == '-' && b == '-' then collapseDashes (b :: rest)
    else a :: collapseDashes (b :: rest)

/-- The cleanup of the translated stem in `translate_name`:
`re.sub(r'-+', '-', x).strip('-')`. -/
def normalizeStem (s : List Char) : List Char :=
  stripChars (fun c => c == '-') (collapseDashes s)

/-- `translate_name`: names without Chinese are returned unchanged;
otherwise only the stem is translated and normalized and the suffix is
re-attached. -/
def translate_name (dict : List (List Char × List Char)) (tr : List Char → List Char)
    (name : List Char) : List Char :=
  if contains_chinese name then
    normalizeStem (translate_with_dictionary dict tr (splitName name).1) ++ (splitName name).2
  else name

/-! ### `rename_item` and the candidate loop of `translate_directory`

The collision rule and the processing loop are modelled for candidates
inside one parent directory, with the filesystem as the list of entry
names in that directory (the scope of claim C4); the full-path variant
used for tree-level claims follows below. -/

/-- `f"{counter}"`. -/
def natChars (n : Nat) : List Char := Nat.toDigits 10 n

/-- `f"{stem}_{counter}{suffix}"`. -/
def collisionName (stem suffix : List Char) (k : Nat) : List Char :=
  stem ++ '_' :: (natChars k ++ suffix)

/-- The `while new_path.exists()` loop of `rename_item`: try counters
`k, k+1, ...` until the name is free.  The fuel bounds the unbounded
`while`; callers pass `fs.length + 1` and the claims only use that a
returned name is free. -/
def findFreeName (fs : List (List Char)) (stem suffix : List Char) :
    Nat → Nat → Option (List Char)
  | 0, _ => none
  | fuel + 1, k =>
    if fs.contains (collisionName stem suffix k) then
      findFreeName fs stem suffix fuel (k + 1)
    else some (collisionName stem suffix k)

/-- The conflict resolution of `rename_item`: keep the proposed name if
free, otherwise run the `_<counter>` loop starting at 1 (the source
computes `stem = new_path.stem if new_path.suffix else new_name`, which
equals `(splitName newName).1` in both cases). -/
def resolveTarget (fs : List (List Char)) (newName : List Char) : Option (List Char) :=
  if fs.contains newName then
    findFreeName fs (splitName newName).1 (splitName newName).2 (fs.length + 1) 1
  else some newName

/-- `rename_item` for a candidate in a directory with entries `fs`:
identical names are a no-op (`None`); otherwise the target is resolved
against the existing entries; in dry-run mode nothing is renamed,
otherwise the old entry is replaced by the target. -/
def rename_item (fs : List (List Char)) (oldName newName : List Char) (dryRun : Bool) :
    Option (List Char) × List (List Char) :=
  if oldName == newName then (none, fs)
  else
    match resolveTarget fs newName with
    | none => (none, fs)
    | some t => if dryRun then (some t, fs) else (some t, t :: fs.erase oldName)

/-- Outcome of one candidate in the `translate_directory` loop. -/
inductive ItemResult where
  | missing (name : List Char)
  | unchanged (name : List Char)
  | renamed (oldName target : List Char)
  | stuck (name : List Char)
  deriving DecidableEq

/-- The candidate loop of `translate_directory` over the pre-collected
items: a vanished path is skipped silently, an unchanged name is not
renamed, otherwise `rename_item` runs and the renamed count is
incremented (the count is incremented after the `rename_item` call,
whatever it did).  Returns the per-item results, the final directory
contents and the count. -/
def processItems (dict : List (List Char × List Char)) (tr : List Char → List Char)
    (dryRun : Bool) : List (List Char) → List (List Char) →
    List ItemResult × List (List Char) × Nat
  | [], fs => ([], fs, 0)
  | item :: rest, fs =>
    if fs.contains item then
      let newName := translate_name dict tr item
      if item == newName then
        let r := processItems dict tr dryRun rest fs
        (ItemResult.unchanged item :: r.1, r.2)
      else
        let step := rename_item fs item newName dryRun
        let r := processItems dict tr dryRun rest step.2
        match step.1 with
        | some t => (ItemResult.renamed item t :: r.1, r.2.1, r.2.2 + 1)
        | none => (ItemResult.stuck item :: r.1, r.2.1, r.2.2 + 1)
    else
      let r := processItems dict tr dryRun rest fs
      (ItemResult.missing item :: r.1, r.2)

/-- The targets of the renamed results, in processing order. -/
def renTargets : List ItemResult → List (List Char)
  | [] => []
  | ItemResult.renamed _ t :: rest => t :: renTargets rest
  | _ :: rest => renTargets rest

/-! ### The pipeline with a fallible translator

The source has no `try`/`except` around the candidate loop, so an
exception from the external translator propagates out of the loop; the
`Except` variants below make that propagation explicit: the same
definitions with the translator returning `Except Unit` and every
call sequenced with `bind`. -/

/-- `translate_remaining_chinese` with a fallible translator; the
segments are still processed right to left (`List.foldrM` performs the
rightmost effect first). -/
def translate_remaining_chineseE (tr : List Char → Except Unit (List Char))
    (text : List Char) : Except Unit (List Char) :=
  (extract_chinese_segments text).foldrM
    (fun seg res => do
      let t ← tr seg.1
      pure (spliceRange res seg.2.1 seg.2.2 (cleanTranslated t))) text

/-- `buildParts` with a fallible translator. -/
def buildPartsE (tr : List Char → Except Unit (List Char)) (s : List Char) :
    List (Nat × Nat × List Char) → Nat → Except Unit (List Char)
  | [], lastEnd =>
    let after := s.drop lastEnd
    if contains_chinese after then translate_remaining_chineseE tr after else pure after
  | (st, en, rep) :: rest, lastEnd => do
    let before := (s.drop lastEnd).take (st - lastEnd)
    let b ← if contains_chinese before then translate_remaining_chineseE tr before
            else pure before
    let restR ← buildPartsE tr s rest en
    pure (b ++ rep ++ restR)

/-- `translate_with_dictionary` with a fallible translator. -/
def translate_with_dictionaryE (dict : List (List Char × List Char))
    (tr : List Char → Except Unit (List Char)) (s : List Char) : Except Unit (List Char) :=
  let ranges := matchedRanges dict s
  if ranges.isEmpty then translate_remaining_chineseE tr s
  else buildPartsE tr s ranges 0

/-- `translate_name` with a fallible translator. -/
def translate_nameE (dict : List (List Char × List Char))
    (tr : List Char → Except Unit (List Char)) (name : List Char) : Except Unit (List Char) :=
  if contains_chinese name then do
    let t ← translate_with_dictionaryE dict tr (splitName name).1
    pure (normalizeStem t ++ (splitName name).2)
  else pure name

/-- The candidate loop with a fallible translator: a failing
translation inside `translate_name` propagates out of the loop and
aborts the whole run (there is no handler in the source). -/
def processItemsE (dict : List (List Char × List Char))
    (tr : List Char → Except Unit (List Char)) (dryRun : Bool) :
    List (List Char) → List (List Char) →
    Except Unit (List ItemResult × List (List Char) × Nat)
  | [], fs => pure ([], fs, 0)
  | item :: rest, fs =>
    if fs.contains item then do
      let newName ← translate_nameE dict tr item
      if item == newName then
        let r ← processItemsE dict tr dryRun rest fs
        pure (ItemResult.unchanged item :: r.1, r.2)
      else
        let step := rename_item fs item newName dryRun
        let r ← processItemsE dict tr dryRun rest step.2
        match step.1 with
        | some t => pure (ItemResult.renamed item t :: r.1, r.2.1, r.2.2 + 1)
        | none => pure (ItemResult.stuck item :: r.1, r.2.1, r.2.2 + 1)
    else do
      let r ← processItemsE dict tr dryRun rest fs
      pure (ItemResult.missing item :: r.1, r.2)

/-! ### The run over full paths

For the tree-level claims, the filesystem is the list of existing
paths (each path a list of name components) and `os.rename` moves a
whole subtree: every path extending the old path gets its head
replaced. -/

/-- The effect of `os.rename old new` on one existing path. -/
def renamePrefix (old new q : List (List Char)) : List (List Char) :=
  if decide (old <+: q) then new ++ q.drop old.length else q

/-- The collision loop of `rename_item` checked against sibling paths. -/
def findFreePath (fs : List (List (List Char))) (parent : List (List Char))
    (stem suffix : List Char) : Nat → Nat → Option (List Char)
  | 0, _ => none
  | fuel + 1, k =>
    if fs.contains (parent ++ [collisionName stem suffix k]) then
      findFreePath fs parent stem suffix fuel (k + 1)
    else some (collisionName stem suffix k)

/-- The conflict resolution of `rename_item` against sibling paths. -/
def resolveTargetPath (fs : List (List (List Char))) (parent : List (List Char))
    (newName : List Char) : Option (List Char) :=
  if fs.contains (parent ++ [newName]) then
    findFreePath fs parent (splitName newName).1 (splitName newName).2 (fs.length + 1) 1
  else some newName

/-- The candidate loop of `translate_directory` over full paths:
`item_path.exists()` is membership of the path, `rename_item` resolves
the collision against the sibling paths, and a live rename moves the
whole subtree; dry-run performs the same resolution but never touches
the filesystem.  Returns the final filesystem and the renamed count. -/
def processPaths (dict : List (List Char × List Char)) (tr : List Char → List Char)
    (dryRun : Bool) : List (List (List Char)) → List (List (List Char)) →
    List (List (List Char)) × Nat
  | [], fs => (fs, 0)
  | p :: rest, fs =>
    if fs.contains p then
      let oldName := p.getLastD []
      let newName := translate_name dict tr oldName
      if oldName == newName then processPaths dict tr dryRun rest fs
      else
        let parent := p.dropLast
        match resolveTargetPath fs parent newName with
        | none =>
          let r := processPaths dict tr dryRun rest fs
          (r.1, r.2 + 1)
        | some t =>
          if dryRun then
            let r := processPaths dict tr dryRun rest fs
            (r.1, r.2 + 1)
          else
            let r := processPaths dict tr dryRun rest (fs.map (renamePrefix p (parent ++ [t])))
            (r.1, r.2 + 1)
    else processPaths dict tr dryRun rest fs

/-! ### The tree scan of `translate_directory`

`os.walk(root, topdown=False)` yields each directory after all of its
subdirectories; for each yielded triple the loop collects the
Chinese-named files first, then the Chinese-named subdirectory names,
skipping `.git`/`.venv` components. -/

/-- A directory tree; children appear in listing order. -/
inductive FSTree where
  | file (name : List Char)
  | dir (name : List Char) (children : List FSTree)

/-- Base name of an entry. -/
def FSTree.name : FSTree → List Char
  | .file n => n
  | .dir n _ => n

/-- Names of a list of entries. -/
def namesOf : List FSTree → List (List Char)
  | [] => []
  | t :: ts => FSTree.name t :: namesOf ts

/-- `dirnames` of a listing. -/
def childDirNames : List FSTree → List (List Char)
  | [] => []
  | FSTree.dir n _ :: ts => n :: childDirNames ts
  | FSTree.file _ :: ts => childDirNames ts

/-- `filenames` of a listing. -/
def childFileNames : List FSTree → List (List Char)
  | [] => []
  | FSTree.file n :: ts => n :: childFileNames ts
  | FSTree.dir _ _ :: ts => childFileNames ts

mutual

/-- `os.walk(topdown=False)` triples `(dirpath, dirnames, filenames)`
of a directory entry at parent path `p`: all the subtree triples come
first, then the entry's own triple; a file yields nothing. -/
def walkTree (p : List (List Char)) : FSTree → List (List (List Char) × List (List Char) × List (List Char))
  | FSTree.file _ => []
  | FSTree.dir n cs =>
    walkTrees (p ++ [n]) cs ++ [(p ++ [n], childDirNames cs, childFileNames cs)]

/-- Triples of a listing, in listing order. -/
def walkTrees (p : List (List Char)) : List FSTree → List (List (List Char) × List (List Char) × List (List Char))
  | [] => []
  | t :: ts => walkTree p t ++ walkTrees p ts

end

/-- `'.git'`/`'.venv'` exclusion names. -/
def isSkipName (n : List Char) : Bool := n == ".git".toList || n == ".venv".toList

/-- Candidates collected from one walk triple: the whole triple is
skipped when an excluded name occurs among the `dirpath` components;
otherwise the Chinese-named files, then the Chinese-named directory
names (themselves not excluded). -/
def candsOfTriple (tri : List (List Char) × List (List Char) × List (List Char)) :
    List (List (List Char)) :=
  if tri.1.any isSkipName then []
  else
    (tri.2.2.filter contains_chinese).map (fun f => tri.1 ++ [f])
      ++ (tri.2.1.filter (fun d => !isSkipName d && contains_chinese d)).map
          (fun d => tri.1 ++ [d])

/-- `items_to_process` for a tree rooted at `t`: the candidates of the
walk triples, in walk order. -/
def candidates (t : FSTree) : List (List (List Char)) :=
  (walkTree [] t).flatMap candsOfTriple

mutual

/-- A well-formed tree: sibling names are distinct, recursively (true
of any real directory tree). -/
def wfTree : FSTree → Bool
  | FSTree.file _ => true
  | FSTree.dir _ cs => decide (namesOf cs).Nodup && wfTrees cs

/-- All entries of a listing are well-formed. -/
def wfTrees : List FSTree → Bool
  | [] => true
  | t :: ts => wfTree t && wfTrees ts

end

/-! ### Relations used by the stated properties -/

/-- Spans `[start, end)` that share no offset. -/
def SpansDisjoint (m1 m2 : Nat × Nat × List Char) : Prop :=
  m1.2.1 ≤ m2.1 ∨ m2.2.1 ≤ m1.1

/-- Adjacent characters of a string are never both hyphens. -/
def NoDoubleDash (l : List Char) : Prop :=
  l.Chain' (fun a b => ¬(a = '-' ∧ b = '-'))

/-- `a` is not a proper ancestor path of `b`; a candidate list that is
pairwise in this relation never lists a directory before one of its
descendants. -/
def RNoAnc (a b : List (List Char)) : Prop := ¬(a <+: b ∧ a.length < b.length)

/-! ## Theorems -/

/-! ### The stable sort -/

theorem insertBy_perm (le : α → α → Bool) (x : α) (l : List α) :
    (insertBy le x l).Perm (x :: l) := by
  induction l with
  | nil => exact List.Perm.refl _
  | cons y ys ih =>
    simp only [insertBy]
    split
    · exact List.Perm.refl _
    · exact (ih.cons y).trans (List.Perm.swap x y ys)

theorem sortBy_perm (le : α → α → Bool) (l : List α) : (sortBy le l).Perm l := by
  induction l with
  | nil => exact List.Perm.refl _
  | cons x xs ih => exact (insertBy_perm le x (sortBy le xs)).trans (ih.cons x)

theorem mem_sortBy {le : α → α → Bool} {l : List α} {x : α} :
    x ∈ sortBy le l ↔ x ∈ l := (sortBy_perm le l).mem_iff

theorem pairwise_insertBy (le : α → α → Bool)
    (htr : ∀ a b c, le a b = true → le b c = true → le a c = true)
    (hto : ∀ a b, le a b = true ∨ le b a = true)
    (x : α) {l : List α} (h : l.Pairwise (fun a b => le a b = true)) :
    (insertBy le x l).Pairwise (fun a b => le a b = true) := by
  induction l with
  | nil => simp [insertBy]
  | cons y ys ih =>
    rcases List.pairwise_cons.mp h with ⟨hy, hys⟩
    simp only [insertBy]
    split
    · rename_i hxy
      refine List.pairwise_cons.mpr ⟨?_, h⟩
      intro z hz
      rcases List.mem_cons.mp hz with rfl | hz
      · exact hxy
      · exact htr x y z hxy (hy z hz)
    · rename_i hxy
      have hyx : le y x = true := by
        rcases hto x y with hc | hc
        · exact absurd hc hxy
        · exact hc
      refine List.pairwise_cons.mpr ⟨?_, ih hys⟩
      intro z hz
      rcases List.mem_cons.mp ((insertBy_perm le x ys).mem_iff.mp hz) with rfl | hz'
      · exact hyx
      · exact hy z hz'

theorem pairwise_sortBy (le : α → α → Bool)
    (htr : ∀ a b c, le a b = true → le b c = true → le a c = true)
    (hto : ∀ a b, le a b = true ∨ le b a = true)
    (l : List α) : (sortBy le l).Pairwise (fun a b => le a b = true) := by
  induction l with
  | nil => simp [sortBy]
  | cons x xs ih => exact pairwise_insertBy le htr hto x ih

/-! ### Normalization (claim C6) -/

theorem collapseDashes_head? (b : Char) (rest : List Char) :
    (collapseDashes (b :: rest)).head? = some b := by
  induction rest generalizing b with
  | nil => rfl
  | cons c r ih =>
    simp only [collapseDashes]
    split
    · rename_i hcond
      have hbc : b = '-' ∧ c = '-' := by simpa using hcond
      rw [ih c, hbc.1, hbc.2]
    · rfl

theorem collapseDashes_noDoubleDash (l : List Char) : NoDoubleDash (collapseDashes l) := by
  induction l with
  | nil => exact List.chain'_nil
  | cons a l ih =>
    cases l with
    | nil => exact List.chain'_singleton a
    | cons b rest =>
      simp only [collapseDashes]
      split
      · exact ih
      · rename_i hcond
        refine List.chain'_cons'.mpr ⟨?_, ih⟩
        intro y hy
        rw [collapseDashes_head? b rest] at hy
        cases hy
        intro hab
        apply hcond
        simp [hab.1, hab.2]

theorem collapseDashes_eq_self {l : List Char} (h : NoDoubleDash l) : collapseDashes l = l := by
  induction l with
  | nil => rfl
  | cons a l ih =>
    cases l with
    | nil => rfl
    | cons b rest =>
      have hab := List.chain'_cons.mp h
      simp only [collapseDashes]
      rw [if_neg ?_, ih hab.2]
      intro hcond
      exact hab.1 (by simpa using hcond)

theorem stripChars_isInfix (p : Char → Bool) (l : List Char) : stripChars p l <:+: l := by
  unfold stripChars
  have h1 : List.rdropWhile p (l.dropWhile p) <+: l.dropWhile p := List.rdropWhile_prefix p _
  exact List.IsInfix.trans h1.isInfix (List.dropWhile_suffix p).isInfix

theorem noDoubleDash_isInfix {l m : List Char} (h : NoDoubleDash l) (hm : m <:+: l) :
    NoDoubleDash m := List.Chain'.infix h hm

theorem stripChars_idem (p : Char → Bool) (l : List Char) :
    stripChars p (stripChars p l) = stripChars p l := by
  unfold stripChars
  have h1 : List.dropWhile p (List.rdropWhile p (List.dropWhile p l)) =
      List.rdropWhile p (List.dropWhile p l) := by
    rw [List.dropWhile_eq_self_iff]
    intro hl
    have hpre := List.rdropWhile_prefix p (List.dropWhile p l)
    have hne : List.rdropWhile p (List.dropWhile p l) ≠ [] := by
      intro hnil
      rw [hnil] at hl
      exact absurd hl (by simp)
    simp only [List.get_eq_getElem]
    rw [hpre.getElem hl]
    have hlen : 0 < (List.dropWhile p l).length :=
      Nat.lt_of_lt_of_le hl hpre.length_le
    have := List.dropWhile_get_zero_not p l hlen
    simpa using this
  rw [h1, List.rdropWhile_idempotent]

/-- C6: the cleanup applied to the translated stem in `translate_name`
(collapse every run of hyphens to one, then strip leading and trailing
hyphens) is idempotent: applying it twice is the same as applying it
once. -/
theorem claim_C6 (x : List Char) : normalizeStem (normalizeStem x) = normalizeStem x := by
  unfold normalizeStem
  have hchain : NoDoubleDash (stripChars (fun c => c == '-') (collapseDashes x)) :=
    noDoubleDash_isInfix (collapseDashes_noDoubleDash x) (stripChars_isInfix _ _)
  rw [collapseDashes_eq_self hchain, stripChars_idem]

/-! ### The matcher: non-overlap, ordering, and match completeness
(claims C1 and C2) -/

theorem pairwise_addOccurrence {acc : List (Nat × Nat × List Char)} (rep : List Char)
    (tlen i : Nat) (h : acc.Pairwise SpansDisjoint) :
    (addOccurrence rep tlen acc i).Pairwise SpansDisjoint := by
  unfold addOccurrence
  split
  · exact h
  · rename_i hno
    rw [List.pairwise_append]
    refine ⟨h, List.pairwise_singleton _ _, ?_⟩
    intro a ha b hb
    have hb' : b = (i, i + tlen, rep) := by simpa using hb
    subst hb'
    have hover : overlapsRange i (i + tlen) a = false := by
      by_contra hc
      exact hno (List.any_eq_true.mpr ⟨a, ha, by simpa using hc⟩)
    have himp : a.1 < i + tlen → a.2.1 ≤ i := by
      simpa [overlapsRange] using hover
    rcases Nat.lt_or_ge a.1 (i + tlen) with hlt | hge
    · exact Or.inl (himp hlt)
    · exact Or.inr hge

theorem mem_addOccurrence_of_mem {acc m} (rep : List Char) (tlen i : Nat)
    (h : m ∈ acc) : m ∈ addOccurrence rep tlen acc i := by
  unfold addOccurrence
  split
  · exact h
  · exact List.mem_append_left _ h

theorem mem_of_addOccurrence {acc m} {rep : List Char} {tlen i : Nat}
    (h : m ∈ addOccurrence rep tlen acc i) : m ∈ acc ∨ m = (i, i + tlen, rep) := by
  unfold addOccurrence at h
  split at h
  · exact Or.inl h
  · rcases List.mem_append.mp h with h' | h'
    · exact Or.inl h'
    · exact Or.inr (by simpa using h')

theorem mem_foldl_addOcc_of_mem (ps : List Nat) (rep : List Char) (tlen : Nat)
    {acc m} (h : m ∈ acc) :
    m ∈ ps.foldl (fun a i => addOccurrence rep tlen a i) acc := by
  induction ps generalizing acc with
  | nil => exact h
  | cons j ps ih => exact ih (mem_addOccurrence_of_mem rep tlen j h)

theorem mem_of_foldl_addOcc {ps : List Nat} {rep : List Char} {tlen : Nat} {acc m}
    (h : m ∈ ps.foldl (fun a i => addOccurrence rep tlen a i) acc) :
    m ∈ acc ∨ ∃ i ∈ ps, m = (i, i + tlen, rep) := by
  induction ps generalizing acc with
  | nil => exact Or.inl h
  | cons j ps ih =>
    rcases ih h with h' | h'
    · rcases mem_of_addOccurrence h' with h'' | h''
      · exact Or.inl h''
      · exact Or.inr ⟨j, List.mem_cons_self j ps, h''⟩
    · rcases h' with ⟨i, hi, hm⟩
      exact Or.inr ⟨i, List.mem_cons_of_mem j hi, hm⟩

theorem mem_addTermOccurrences_of_mem {s acc m} (p : List Char × List Char)
    (h : m ∈ acc) : m ∈ addTermOccurrences s acc p :=
  mem_foldl_addOcc_of_mem _ _ _ h

theorem mem_of_addTermOccurrences {s acc m} {p : List Char × List Char}
    (h : m ∈ addTermOccurrences s acc p) :
    m ∈ acc ∨ ∃ i ∈ occurrencePositions p.1 s, m = (i, i + p.1.length, p.2) :=
  mem_of_foldl_addOcc h

theorem mem_dictFold_of_mem (dict : List (List Char × List Char)) {s acc m}
    (h : m ∈ acc) : m ∈ dict.foldl (addTermOccurrences s) acc := by
  induction dict generalizing acc with
  | nil => exact h
  | cons p rest ih => exact ih (mem_addTermOccurrences_of_mem p h)

theorem mem_of_dictFold {dict : List (List Char × List Char)} {s acc m}
    (h : m ∈ dict.foldl (addTermOccurrences s) acc) :
    m ∈ acc ∨ ∃ p ∈ dict, ∃ i ∈ occurrencePositions p.1 s, m = (i, i + p.1.length, p.2) := by
  induction dict generalizing acc with
  | nil => exact Or.inl h
  | cons q rest ih =>
    rcases ih h with h' | h'
    · rcases mem_of_addTermOccurrences h' with h'' | h''
      · exact Or.inl h''
      · rcases h'' with ⟨i, hi, hm⟩
        exact Or.inr ⟨q, List.mem_cons_self q rest, i, hi, hm⟩
    · rcases h' with ⟨p, hp, i, hi, hm⟩
      exact Or.inr ⟨p, List.mem_cons_of_mem q hp, i, hi, hm⟩

theorem pairwise_addTermOccurrences {s acc} (p : List Char × List Char)
    (h : acc.Pairwise SpansDisjoint) :
    (addTermOccurrences s acc p).Pairwise SpansDisjoint := by
  unfold addTermOccurrences
  generalize occurrencePositions p.1 s = ps
  induction ps generalizing acc with
  | nil => exact h
  | cons j ps ih => exact ih (pairwise_addOccurrence p.2 p.1.length j h)

theorem pairwise_firstPass (dict : List (List Char × List Char)) (s : List Char) :
    (firstPass dict s).Pairwise SpansDisjoint := by
  unfold firstPass
  have hgen : ∀ (d : List (List Char × List Char)) (acc : List (Nat × Nat × List Char)),
      acc.Pairwise SpansDisjoint → (d.foldl (addTermOccurrences s) acc).Pairwise SpansDisjoint := by
    intro d
    induction d with
    | nil => intro acc h; exact h
    | cons p rest ih => intro acc h; exact ih _ (pairwise_addTermOccurrences p h)
  exact hgen dict [] (List.Pairwise.nil)

theorem foldl_addOcc_complete (ps : List Nat) (rep : List Char) (tlen : Nat)
    (acc : List (Nat × Nat × List Char)) {i : Nat} (hi : i ∈ ps) :
    (i, i + tlen, rep) ∈ ps.foldl (fun a j => addOccurrence rep tlen a j) acc ∨
    ∃ m ∈ ps.foldl (fun a j => addOccurrence rep tlen a j) acc,
      overlapsRange i (i + tlen) m = true := by
  induction ps generalizing acc with
  | nil => cases hi
  | cons j ps ih =>
    rw [List.foldl_cons]
    rcases List.mem_cons.mp hi with rfl | hi'
    · by_cases hany : acc.any (overlapsRange i (i + tlen)) = true
      · obtain ⟨m, hm, hov⟩ := List.any_eq_true.mp hany
        refine Or.inr ⟨m, ?_, by simpa using hov⟩
        exact mem_foldl_addOcc_of_mem ps rep tlen (mem_addOccurrence_of_mem rep tlen i hm)
      · refine Or.inl (mem_foldl_addOcc_of_mem ps rep tlen ?_)
        unfold addOccurrence
        rw [if_neg hany]
        exact List.mem_append_right _ (List.mem_singleton.mpr rfl)
    · exact ih _ hi'

theorem minlen_addTermOccurrences {s acc} {p : List Char × List Char} {n : Nat}
    (h : ∀ m ∈ acc, n ≤ m.2.1 - m.1) (hp : n ≤ p.1.length) :
    ∀ m ∈ addTermOccurrences s acc p, n ≤ m.2.1 - m.1 := by
  intro m hm
  rcases mem_of_addTermOccurrences hm with h' | h'
  · exact h m h'
  · rcases h' with ⟨i, _, rfl⟩
    simpa using hp

theorem dictFold_complete (s : List Char) (dict : List (List Char × List Char)) :
    ∀ (acc : List (Nat × Nat × List Char)) (t rep : List Char) (i : Nat),
    (t, rep) ∈ dict →
    dict.Pairwise (fun p q => q.1.length ≤ p.1.length) →
    (∀ m ∈ acc, t.length ≤ m.2.1 - m.1) →
    i ∈ occurrencePositions t s →
    (i, i + t.length, rep) ∈ dict.foldl (addTermOccurrences s) acc ∨
    ∃ m ∈ dict.foldl (addTermOccurrences s) acc,
      overlapsRange i (i + t.length) m = true ∧ t.length ≤ m.2.1 - m.1 := by
  induction dict with
  | nil => intro acc t rep i h; cases h
  | cons p rest ih =>
    intro acc t rep i hmem hsorted hmin hocc
    rw [List.foldl_cons]
    rcases List.pairwise_cons.mp hsorted with ⟨hp, hrest⟩
    rcases List.mem_cons.mp hmem with heq | hmem'
    · have ht : p.1 = t := by rw [← heq]
      have hr : p.2 = rep := by rw [← heq]
      have hmin1 : ∀ m ∈ addTermOccurrences s acc p, t.length ≤ m.2.1 - m.1 :=
        minlen_addTermOccurrences hmin (by rw [ht])
      have hcomp := foldl_addOcc_complete (occurrencePositions p.1 s) p.2 p.1.length acc
        (by rw [ht]; exact hocc)
      rw [ht, hr] at hcomp
      rcases hcomp with hin | ⟨m, hm, hov⟩
      · refine Or.inl (mem_dictFold_of_mem rest ?_)
        unfold addTermOccurrences
        rw [ht, hr] at *
        convert hin using 2
      · refine Or.inr ⟨m, mem_dictFold_of_mem rest ?_, hov, hmin1 m ?_⟩
        · unfold addTermOccurrences
          rw [ht, hr]
          exact hm
        · unfold addTermOccurrences
          rw [ht, hr]
          exact hm
    · refine ih _ t rep i hmem' hrest ?_ hocc
      exact minlen_addTermOccurrences hmin (hp (t, rep) hmem')

theorem sortTermsDesc_pairwise (dict : List (List Char × List Char)) :
    (sortTermsDesc dict).Pairwise (fun p q => q.1.length ≤ p.1.length) := by
  have h := pairwise_sortBy
    (fun a b : List Char × List Char => decide (b.1.length ≤ a.1.length)) ?_ ?_ dict
  · exact h.imp (fun hab => by simpa using hab)
  · intro a b c hab hbc
    simp only [decide_eq_true_eq] at *
    omega
  · intro a b
    simp only [decide_eq_true_eq]
    omega

theorem mem_sortTermsDesc {dict : List (List Char × List Char)} {p} :
    p ∈ sortTermsDesc dict ↔ p ∈ dict := mem_sortBy

theorem mem_matchedRanges {dict : List (List Char × List Char)} {s m} :
    m ∈ matchedRanges dict s ↔ m ∈ firstPass (sortTermsDesc dict) s := mem_sortBy

theorem matchedRanges_pairwise_disjoint (dict : List (List Char × List Char))
    (s : List Char) : (matchedRanges dict s).Pairwise SpansDisjoint := by
  refine (pairwise_firstPass (sortTermsDesc dict) s).perm
    (sortBy_perm _ _).symm ?_
  intro x y h
  exact h.symm

theorem matchedRanges_sorted_le (dict : List (List Char × List Char)) (s : List Char) :
    (matchedRanges dict s).Pairwise (fun a b => a.1 ≤ b.1) := by
  have h := pairwise_sortBy
    (fun a b : Nat × Nat × List Char => decide (a.1 ≤ b.1)) ?_ ?_
    (firstPass (sortTermsDesc dict) s)
  · exact h.imp (fun hab => by simpa using hab)
  · intro a b c hab hbc
    simp only [decide_eq_true_eq] at *
    omega
  · intro a b
    simp only [decide_eq_true_eq]
    omega

/-- Every dictionary key is nonempty. -/
theorem dspDict_key_pos : ∀ p ∈ dspDict, 0 < p.1.length := by decide

theorem matchedRanges_start_lt_end {s m} (h : m ∈ matchedRanges dspDict s) :
    m.1 < m.2.1 := by
  rcases mem_of_dictFold (mem_matchedRanges.mp h) with h' | h'
  · cases h'
  · rcases h' with ⟨p, hp, i, _, rfl⟩
    have := dspDict_key_pos p (mem_sortTermsDesc.mp hp)
    simpa using this

/-- C2: for every input string, the match set computed by
`translate_with_dictionary` is pairwise non-overlapping (no two spans
share any offset) and, after the final sort, is strictly ascending by
start offset. -/
theorem claim_C2 (s : List Char) :
    (matchedRanges dspDict s).Pairwise SpansDisjoint ∧
    (matchedRanges dspDict s).Pairwise (fun a b => a.1 < b.1) := by
  refine ⟨matchedRanges_pairwise_disjoint dspDict s, ?_⟩
  have h1 := matchedRanges_pairwise_disjoint dspDict s
  have h2 := matchedRanges_sorted_le dspDict s
  refine (h2.and h1).imp_of_mem ?_
  intro a b ha hb hab
  rcases hab with ⟨hle, hd | hd⟩
  · have := matchedRanges_start_lt_end ha
    omega
  · have := matchedRanges_start_lt_end hb
    omega

/-- C1, amended: an occurrence of a dictionary term is always either
accepted into the match set or overlaps an accepted span of a term at
least as long; together with the pairwise non-overlap of the match set
this is what survives of "the longer term always wins": the longer of
two overlapping occurrences can itself be rejected (see the
counterexample), but only because of a retained match at least as long
as it. -/
theorem claim_C1 (s t rep : List Char) (i : Nat)
    (hmem : (t, rep) ∈ dspDict) (hocc : i ∈ occurrencePositions t s) :
    (matchedRanges dspDict s).Pairwise SpansDisjoint ∧
    ((i, i + t.length, rep) ∈ matchedRanges dspDict s ∨
      ∃ m ∈ matchedRanges dspDict s,
        overlapsRange i (i + t.length) m = true ∧ t.length ≤ m.2.1 - m.1) := by
  refine ⟨matchedRanges_pairwise_disjoint dspDict s, ?_⟩
  have hcomp := dictFold_complete s (sortTermsDesc dspDict) [] t rep i
    (mem_sortTermsDesc.mpr hmem) (sortTermsDesc_pairwise dspDict)
    (by intro m hm; cases hm) hocc
  rcases hcomp with hin | ⟨m, hm, hov, hlen⟩
  · exact Or.inl (mem_matchedRanges.mpr hin)
  · exact Or.inr ⟨m, mem_matchedRanges.mpr hm, hov, hlen⟩

/-- C1 witness for the amended claim, at the term 铁矿 occurring at
offset 0 of the string 铁矿. -/
theorem claim_C1_witness :
    (("铁矿".toList, "Iron-Ore".toList) ∈ dspDict ∧
      0 ∈ occurrencePositions ("铁矿".toList) ("铁矿".toList)) ∧
    ((matchedRanges dspDict ("铁矿".toList)).Pairwise SpansDisjoint ∧
      ((0, 0 + ("铁矿".toList).length, "Iron-Ore".toList) ∈
          matchedRanges dspDict ("铁矿".toList) ∨
        ∃ m ∈ matchedRanges dspDict ("铁矿".toList),
          overlapsRange 0 (0 + ("铁矿".toList).length) m = true ∧
          ("铁矿".toList).length ≤ m.2.1 - m.1)) :=
  ⟨⟨by decide, by decide⟩,
    claim_C1 ("铁矿".toList) ("铁矿".toList) ("Iron-Ore".toList) 0 (by decide) (by decide)⟩

/-- C1 counterexample: in the string 黑雾矩阵研究站, the dictionary terms
黑雾矩阵 (length 4) and 黑雾 (length 2) both occur at offset 0, so their
occurrence ranges overlap and the shorter occurrence even lies inside
the longer term's occurrence range; yet the match set retains the
*shorter* term's occurrence and rejects the longer one's (the longer
occurrence is blocked by the accepted occurrence of the length-5 term
矩阵研究站 at offsets 2..7), contradicting the claim that the longer
term always wins. -/
theorem claim_C1_cx :
    ("黑雾矩阵".toList, "Dark-Fog-Matrix".toList) ∈ dspDict ∧
    ("黑雾".toList, "Dark-Fog".toList) ∈ dspDict ∧
    occAt ("黑雾矩阵".toList) ("黑雾矩阵研究站".toList) 0 = true ∧
    occAt ("黑雾".toList) ("黑雾矩阵研究站".toList) 0 = true ∧
    ("黑雾".toList).length < ("黑雾矩阵".toList).length ∧
    overlapsRange 0 (0 + ("黑雾矩阵".toList).length) (0, 2, "Dark-Fog".toList) = true ∧
    (0, 2, "Dark-Fog".toList) ∈ matchedRanges dspDict ("黑雾矩阵研究站".toList) ∧
    (0, 4, "Dark-Fog-Matrix".toList) ∉ matchedRanges dspDict ("黑雾矩阵研究站".toList) := by
  decide

/-! ### Gap resolution: `translate_remaining_chinese` refines the
per-run substitution of the spec (claim C7) -/

theorem extractSegs_start_ge :
    ∀ (l : List Char) (i : Nat), ∀ seg ∈ extractSegs l i, i ≤ seg.2.1 := by
  intro l
  induction l with
  | nil => intro i seg h; cases h
  | cons c rest ih =>
    intro i seg h
    by_cases hc : isChineseChar c = true
    · rcases hsegs : extractSegs rest (i + 1) with _ | ⟨⟨run, s, e⟩, tail⟩
      · simp only [extractSegs, hc, if_true, hsegs, List.mem_singleton] at h
        subst h
        exact Nat.le_refl i
      · simp only [extractSegs, hc, if_true, hsegs] at h
        by_cases hs : s = i + 1
        · rw [if_pos hs] at h
          rcases List.mem_cons.mp h with rfl | h'
          · exact Nat.le_refl i
          · have := ih (i + 1) seg (by rw [hsegs]; exact List.mem_cons_of_mem _ h')
            omega
        · rw [if_neg hs] at h
          rcases List.mem_cons.mp h with rfl | h'
          · exact Nat.le_refl i
          · have := ih (i + 1) seg (by rw [hsegs]; exact h')
            omega
    · rw [Bool.not_eq_true] at hc
      simp only [extractSegs, hc, Bool.false_eq_true, if_false] at h
      have := ih (i + 1) seg h
      omega
theorem extractSegs_cons (c : Char) (rest : List Char) (i : Nat) :
    extractSegs (c :: rest) i =
      if isChineseChar c then
        match extractSegs rest (i + 1) with
        | (run, s, e) :: tail =>
          if s = i + 1 then (c :: run, i, e) :: tail
          else ([c], i, i + 1) :: (run, s, e) :: tail
        | [] => [([c], i, i + 1)]
      else extractSegs rest (i + 1) := rfl

theorem extractSegs_cons_neg {c : Char} (rest : List Char) (i : Nat)
    (hc : isChineseChar c = false) :
    extractSegs (c :: rest) i = extractSegs rest (i + 1) := by
  rw [extractSegs_cons, hc]
  simp

theorem extractSegs_cons_pos {c : Char} (rest : List Char) (i : Nat)
    (hc : isChineseChar c = true) :
    extractSegs (c :: rest) i =
      (List.takeWhile isChineseChar (c :: rest), i,
        i + (List.takeWhile isChineseChar (c :: rest)).length) ::
      extractSegs (List.dropWhile isChineseChar (c :: rest))
        (i + (List.takeWhile isChineseChar (c :: rest)).length) := by
  induction rest generalizing c i with
  | nil =>
    simp [extractSegs, hc, List.takeWhile, List.dropWhile]
  | cons d rest' ih =>
    by_cases hd : isChineseChar d = true
    · have hih := ih (c := d) (i + 1) hd
      rw [extractSegs_cons, if_pos hc, hih]
      have htw : List.takeWhile isChineseChar (c :: d :: rest') =
          c :: List.takeWhile isChineseChar (d :: rest') := by
        simp [List.takeWhile_cons, hc]
      have hdw : List.dropWhile isChineseChar (c :: d :: rest') =
          List.dropWhile isChineseChar (d :: rest') := by
        simp [List.dropWhile_cons, hc]
      rw [htw, hdw]
      simp only [List.length_cons]
      have harith : i + ((List.takeWhile isChineseChar (d :: rest')).length + 1) =
          i + 1 + (List.takeWhile isChineseChar (d :: rest')).length := by omega
      rw [harith]
      simp
    · rw [Bool.not_eq_true] at hd
      have htw : List.takeWhile isChineseChar (c :: d :: rest') = [c] := by
        simp [List.takeWhile_cons, hc, hd]
      have hdw : List.dropWhile isChineseChar (c :: d :: rest') = d :: rest' := by
        simp [List.dropWhile_cons, hc, hd]
      rw [extractSegs_cons, if_pos hc, htw, hdw]
      rw [extractSegs_cons_neg rest' (i + 1) hd]
      rcases hsegs : extractSegs rest' (i + 1 + 1) with _ | ⟨⟨run, s, e⟩, tail⟩
      · simp [extractSegs_cons_neg rest' (i + 1) hd, hsegs]
      · have hge : i + 1 + 1 ≤ s :=
          extractSegs_start_ge rest' (i + 1 + 1) (run, s, e)
            (by rw [hsegs]; exact List.mem_cons_self _ _)
        have hs : ¬s = i + 1 := by omega
        simp only [List.length_singleton]
        rw [extractSegs_cons_neg rest' (i + 1) hd, hsegs]
        simp [hs]

theorem extractSegs_shift :
    ∀ (l : List Char) (k i : Nat),
    extractSegs l (k + i) =
      (extractSegs l i).map (fun seg => (seg.1, k + seg.2.1, k + seg.2.2)) := by
  intro l
  induction l with
  | nil => intro k i; rfl
  | cons c rest ih =>
    intro k i
    by_cases hc : isChineseChar c = true
    · rw [extractSegs_cons, if_pos hc, extractSegs_cons, if_pos hc]
      have h1 : k + i + 1 = k + (i + 1) := by omega
      rw [h1, ih k (i + 1)]
      rcases hsegs : extractSegs rest (i + 1) with _ | ⟨⟨run, s, e⟩, tail⟩
      · simp [Nat.add_assoc]
      · simp only [List.map_cons]
        by_cases hs : s = i + 1
        · subst hs
          simp [Nat.add_assoc]
        · have hs2 : ¬(k + s = k + (i + 1)) := by omega
          simp [hs, hs2, Nat.add_assoc]
    · rw [Bool.not_eq_true] at hc
      rw [extractSegs_cons_neg rest (k + i) hc, extractSegs_cons_neg rest i hc]
      have h1 : k + i + 1 = k + (i + 1) := by omega
      rw [h1, ih k (i + 1)]
theorem foldr_splice_append (tr : List Char → List Char) (pre : List Char)
    (segs : List (List Char × Nat × Nat)) (r : List Char) :
    (segs.map (fun seg => (seg.1, pre.length + seg.2.1, pre.length + seg.2.2))).foldr
        (fun seg res => spliceRange res seg.2.1 seg.2.2 (cleanTranslated (tr seg.1)))
        (pre ++ r) =
      pre ++ segs.foldr
        (fun seg res => spliceRange res seg.2.1 seg.2.2 (cleanTranslated (tr seg.1))) r := by
  induction segs with
  | nil => rfl
  | cons g segs ih =>
    simp only [List.map_cons, List.foldr_cons]
    rw [ih]
    unfold spliceRange
    rw [List.take_append, List.drop_append]
    simp [List.append_assoc]

/-- C7: `translate_remaining_chinese` equals the spec-level per-run
substitution: every maximal contiguous Chinese run is translated (and
cleaned) exactly once and substituted in place, and every character
outside the runs is kept unchanged; the reverse-order in-place
splicing of the source is exactly this left-to-right decomposition. -/
theorem claim_C7 (tr : List Char → List Char) (text : List Char) :
    translate_remaining_chinese tr text = substSpec tr text := by
  induction text using substSpec.induct tr with
  | case1 =>
    simp [translate_remaining_chinese, extract_chinese_segments, extractSegs, substSpec]
  | case2 c rest hc ih =>
    unfold translate_remaining_chinese extract_chinese_segments at ih ⊢
    rw [show substSpec tr (c :: rest) =
        cleanTranslated (tr (List.takeWhile isChineseChar (c :: rest)))
          ++ substSpec tr (List.dropWhile isChineseChar (c :: rest)) by
      rw [substSpec]
      rw [dif_pos hc]]
    rw [extractSegs_cons_pos rest 0 hc]
    set run := List.takeWhile isChineseChar (c :: rest) with hrun
    set d := List.dropWhile isChineseChar (c :: rest) with hdd
    rw [List.foldr_cons]
    simp only [Nat.zero_add]
    have hshift := extractSegs_shift d run.length 0
    rw [Nat.add_zero] at hshift
    rw [hshift]
    have hsplit : run ++ d = c :: rest := List.takeWhile_append_dropWhile isChineseChar (c :: rest)
    rw [← hsplit]
    rw [foldr_splice_append tr run (extractSegs d 0) d]
    simp only [spliceRange, List.take_zero, List.nil_append, List.drop_left]
    simp only [spliceRange] at ih
    rw [ih]
  | case3 c rest hc ih =>
    unfold translate_remaining_chinese extract_chinese_segments at ih ⊢
    rw [show substSpec tr (c :: rest) = c :: substSpec tr rest by
      rw [substSpec]
      rw [dif_neg hc]]
    rw [extractSegs_cons_neg rest 0 (by simpa using hc)]
    simp only [Nat.zero_add]
    have hshift := extractSegs_shift rest 1 0
    rw [Nat.add_zero] at hshift
    rw [hshift]
    have hfold := foldr_splice_append tr [c] (extractSegs rest 0) rest
    simp only [List.length_singleton, List.singleton_append] at hfold
    rw [hfold]
    rw [ih]
/-! ### Stem/suffix split and translator call arguments (claim C5) -/

theorem splitName_append (name : List Char) :
    (splitName name).1 ++ (splitName name).2 = name := by
  unfold splitName
  cases lastDotIdx name with
  | none => simp
  | some i =>
    by_cases hcond : 0 < i ∧ i < name.length - 1
    · simp [hcond, List.take_append_drop]
    · simp [hcond]

theorem extractSegs_run_isInfix :
    ∀ (l : List Char) (i : Nat), ∀ seg ∈ extractSegs l i, seg.1 <:+: l := by
  have H : ∀ (n : Nat) (l : List Char), l.length ≤ n →
      ∀ i, ∀ seg ∈ extractSegs l i, seg.1 <:+: l := by
    intro n
    induction n with
    | zero =>
      intro l hl i seg h
      cases l with
      | nil => cases h
      | cons c rest => simp at hl
    | succ n ihn =>
      intro l hl i seg h
      cases l with
      | nil => cases h
      | cons c rest =>
        by_cases hc : isChineseChar c = true
        · rw [extractSegs_cons_pos rest i hc] at h
          rcases List.mem_cons.mp h with rfl | h'
          · have hp : List.takeWhile isChineseChar (c :: rest) <+: c :: rest :=
              List.takeWhile_prefix _
            exact hp.isInfix
          · have hdw : List.dropWhile isChineseChar (c :: rest) =
                List.dropWhile isChineseChar rest := by
              simp [List.dropWhile_cons, hc]
            have hlen : (List.dropWhile isChineseChar (c :: rest)).length ≤ n := by
              rw [hdw]
              have h1 : (List.dropWhile isChineseChar rest).length ≤ rest.length :=
                (List.dropWhile_suffix _).sublist.length_le
              simp only [List.length_cons] at hl
              omega
            exact (ihn _ hlen _ seg h').trans (List.dropWhile_suffix _).isInfix
        · rw [Bool.not_eq_true] at hc
          rw [extractSegs_cons_neg rest i hc] at h
          have hlen : rest.length ≤ n := by
            simp only [List.length_cons] at hl
            omega
          have hs : rest <:+ c :: rest := List.suffix_cons c rest
          exact (ihn _ hlen (i + 1) seg h).trans hs.isInfix
  intro l i seg h
  exact H l.length l (Nat.le_refl _) i seg h

theorem remCalls_isInfix (text : List Char) : ∀ c ∈ remCalls text, c <:+: text := by
  intro c h
  unfold remCalls at h
  rcases List.mem_map.mp h with ⟨seg, hseg, rfl⟩
  exact extractSegs_run_isInfix text 0 seg hseg

theorem slice_isInfix (s : List Char) (a b : Nat) : (s.drop a).take b <:+: s := by
  have h1 : (s.drop a).take b <+: s.drop a := List.take_prefix _ _
  have h2 : s.drop a <:+ s := List.drop_suffix _ _
  exact h1.isInfix.trans h2.isInfix

theorem buildPartsCalls_isInfix (s : List Char) :
    ∀ (ranges : List (Nat × Nat × List Char)) (lastEnd : Nat),
    ∀ c ∈ buildPartsCalls s ranges lastEnd, c <:+: s := by
  intro ranges
  induction ranges with
  | nil =>
    intro lastEnd c h
    simp only [buildPartsCalls] at h
    split at h
    · have h1 := remCalls_isInfix (s.drop lastEnd) c h
      exact h1.trans (List.drop_suffix _ _).isInfix
    · cases h
  | cons rg ranges ih =>
    intro lastEnd c h
    simp only [buildPartsCalls] at h
    rcases List.mem_append.mp h with h' | h'
    · split at h'
      · have h1 := remCalls_isInfix ((s.drop lastEnd).take (rg.1 - lastEnd)) c h'
        exact h1.trans (slice_isInfix s lastEnd (rg.1 - lastEnd))
      · cases h'
    · exact ih rg.2.1 c h'

theorem dictCalls_isInfix (dict : List (List Char × List Char)) (s : List Char) :
    ∀ c ∈ dictCalls dict s, c <:+: s := by
  intro c h
  simp only [dictCalls] at h
  split at h
  · exact remCalls_isInfix s c h
  · exact buildPartsCalls_isInfix s _ 0 c h

/-- C5: a Chinese-containing name is split into stem and last
dot-extension suffix (the two concatenate back to the name); only the
stem is passed to `translate_with_dictionary`, every string handed to
the fallback translator is a contiguous part of the stem, and the
original suffix is re-attached verbatim to the normalized translated
stem. -/
theorem claim_C5 (dict : List (List Char × List Char)) (tr : List Char → List Char)
    (name : List Char) (h : contains_chinese name = true) :
    (splitName name).1 ++ (splitName name).2 = name ∧
    translate_name dict tr name =
      normalizeStem (translate_with_dictionary dict tr (splitName name).1) ++
        (splitName name).2 ∧
    ∀ c ∈ dictCalls dict (splitName name).1, c <:+: (splitName name).1 := by
  refine ⟨splitName_append name, ?_, fun c hc => dictCalls_isInfix dict _ c hc⟩
  unfold translate_name
  rw [if_pos h]

/-- C5 witness at the name 铁矿仓库.txt (stem 铁矿仓库, suffix .txt). -/
theorem claim_C5_witness :
    contains_chinese ("铁矿仓库.txt".toList) = true ∧
    ((splitName ("铁矿仓库.txt".toList)).1 ++ (splitName ("铁矿仓库.txt".toList)).2 =
        "铁矿仓库.txt".toList ∧
      translate_name dspDict (fun _ => "X".toList) ("铁矿仓库.txt".toList) =
        normalizeStem (translate_with_dictionary dspDict (fun _ => "X".toList)
          (splitName ("铁矿仓库.txt".toList)).1) ++ (splitName ("铁矿仓库.txt".toList)).2 ∧
      ∀ c ∈ dictCalls dspDict (splitName ("铁矿仓库.txt".toList)).1,
        c <:+: (splitName ("铁矿仓库.txt".toList)).1) :=
  ⟨by decide, claim_C5 dspDict (fun _ => "X".toList) ("铁矿仓库.txt".toList) (by decide)⟩

/-! ### Names whose Chinese lies only in the suffix (claim C10) -/

theorem extractSegs_eq_nil {l : List Char} (h : contains_chinese l = false) :
    ∀ i, extractSegs l i = [] := by
  induction l with
  | nil => intro i; rfl
  | cons c rest ih =>
    intro i
    have hc : isChineseChar c = false := by
      by_contra hcc
      rw [Bool.not_eq_false] at hcc
      have : contains_chinese (c :: rest) = true :=
        List.any_eq_true.mpr ⟨c, List.mem_cons_self _ _, hcc⟩
      rw [h] at this
      cases this
    have hrest : contains_chinese rest = false := by
      by_contra hcc
      rw [Bool.not_eq_false] at hcc
      rcases List.any_eq_true.mp hcc with ⟨a, ha, hca⟩
      have : contains_chinese (c :: rest) = true :=
        List.any_eq_true.mpr ⟨a, List.mem_cons_of_mem c ha, hca⟩
      rw [h] at this
      cases this
    rw [extractSegs_cons_neg rest i hc]
    exact ih hrest (i + 1)

theorem translate_remaining_no_chinese {text : List Char}
    (h : contains_chinese text = false) (tr : List Char → List Char) :
    translate_remaining_chinese tr text = text := by
  unfold translate_remaining_chinese extract_chinese_segments
  rw [extractSegs_eq_nil h 0]
  rfl

/-- Every dictionary key consists of Chinese characters only. -/
theorem dspDict_key_chinese : ∀ p ∈ dspDict, p.1.all isChineseChar = true := by decide

theorem occurrencePositions_eq_nil {t s : List Char} (ht : 0 < t.length)
    (hall : t.all isChineseChar = true) (hs : contains_chinese s = false) :
    occurrencePositions t s = [] := by
  unfold occurrencePositions
  rw [List.filter_eq_nil_iff]
  intro i _
  intro hocc
  have heq : (s.drop i).take t.length = t := by simpa [occAt] using hocc
  cases t with
  | nil => simp at ht
  | cons a t' =>
    have ha : isChineseChar a = true :=
      List.all_eq_true.mp hall a (List.mem_cons_self _ _)
    have hmem : a ∈ s := by
      have h1 : a ∈ (s.drop i).take (a :: t').length := by
        rw [heq]
        exact List.mem_cons_self _ _
      exact List.drop_subset i s (List.take_subset _ _ h1)
    have : contains_chinese s = true := List.any_eq_true.mpr ⟨a, hmem, ha⟩
    rw [hs] at this
    cases this

theorem firstPass_eq_nil {dict : List (List Char × List Char)} {s : List Char}
    (h : ∀ p ∈ dict, occurrencePositions p.1 s = []) : firstPass dict s = [] := by
  unfold firstPass
  have hgen : ∀ (d : List (List Char × List Char)),
      (∀ p ∈ d, occurrencePositions p.1 s = []) →
      ∀ acc, d.foldl (addTermOccurrences s) acc = acc := by
    intro d
    induction d with
    | nil => intro _ acc; rfl
    | cons p rest ih =>
      intro hh acc
      rw [List.foldl_cons]
      have hstep : addTermOccurrences s acc p = acc := by
        unfold addTermOccurrences
        rw [hh p (List.mem_cons_self _ _)]
        rfl
      rw [hstep]
      exact ih (fun q hq => hh q (List.mem_cons_of_mem _ hq)) acc
  exact hgen _ h []

theorem matchedRanges_no_chinese {s : List Char} (hs : contains_chinese s = false) :
    matchedRanges dspDict s = [] := by
  unfold matchedRanges
  rw [firstPass_eq_nil ?_]
  · rfl
  · intro p hp
    have hp' : p ∈ dspDict := mem_sortTermsDesc.mp hp
    exact occurrencePositions_eq_nil (dspDict_key_pos p hp') (dspDict_key_chinese p hp') hs

theorem translate_with_dictionary_no_chinese {s : List Char}
    (hs : contains_chinese s = false) (tr : List Char → List Char) :
    translate_with_dictionary dspDict tr s = s := by
  simp only [translate_with_dictionary, matchedRanges_no_chinese hs, List.isEmpty_nil,
    if_true]
  exact translate_remaining_no_chinese hs tr

/-- C10, amended: for a name whose Chinese characters occur only inside
its dot-extension suffix, the stem passes through dictionary matching
and gap translation unchanged (the translator is never consulted), so
the result is the hyphen-normalized stem with the suffix re-attached;
the name is returned unchanged — and the candidate never renamed — if
and only if the stem is already hyphen-normalized.  (It is not always
returned unchanged: see the counterexample, where a stem containing
`--` is still rewritten.) -/
theorem claim_C10 (tr : List Char → List Char) (name : List Char)
    (h1 : contains_chinese name = true)
    (h2 : contains_chinese (splitName name).1 = false) :
    translate_name dspDict tr name =
      normalizeStem (splitName name).1 ++ (splitName name).2 ∧
    (translate_name dspDict tr name = name ↔
      normalizeStem (splitName name).1 = (splitName name).1) := by
  have hmain : translate_name dspDict tr name =
      normalizeStem (splitName name).1 ++ (splitName name).2 := by
    unfold translate_name
    rw [if_pos h1, translate_with_dictionary_no_chinese h2]
  refine ⟨hmain, ?_⟩
  rw [hmain]
  constructor
  · intro heq
    have hglue := splitName_append name
    have h2eq : normalizeStem (splitName name).1 ++ (splitName name).2 =
        (splitName name).1 ++ (splitName name).2 := by
      rw [hglue]
      exact heq
    exact List.append_cancel_right h2eq
  · intro heq
    rw [heq, splitName_append]

/-- C10 counterexample: the name `a--b.书` has Chinese only in its
suffix `.书`, yet `translate_name` does not return it unchanged: the
hyphen cleanup rewrites the stem to `a-b`, so the entry would be
renamed. -/
theorem claim_C10_cx :
    contains_chinese ("a--b.书".toList) = true ∧
    splitName ("a--b.书".toList) = ("a--b".toList, ".书".toList) ∧
    contains_chinese ((splitName ("a--b.书".toList)).1) = false ∧
    translate_name dspDict (fun _ => []) ("a--b.书".toList) = "a-b.书".toList ∧
    translate_name dspDict (fun _ => []) ("a--b.书".toList) ≠ "a--b.书".toList := by
  decide

/-- C10 witness for the amended claim at the same name. -/
theorem claim_C10_witness :
    (contains_chinese ("a--b.书".toList) = true ∧
      contains_chinese ((splitName ("a--b.书".toList)).1) = false) ∧
    (translate_name dspDict (fun _ => []) ("a--b.书".toList) =
        normalizeStem ((splitName ("a--b.书".toList)).1) ++ (splitName ("a--b.书".toList)).2 ∧
      (translate_name dspDict (fun _ => []) ("a--b.书".toList) = "a--b.书".toList ↔
        normalizeStem ((splitName ("a--b.书".toList)).1) = (splitName ("a--b.书".toList)).1)) :=
  ⟨⟨by decide, by decide⟩,
    claim_C10 (fun _ => []) ("a--b.书".toList) (by decide) (by decide)⟩

/-! ### The collision rule and rename targets (claim C4) -/

theorem findFreeName_not_mem :
    ∀ (fuel k : Nat) {fs : List (List Char)} {stem suffix t : List Char},
    findFreeName fs stem suffix fuel k = some t → fs.contains t = false := by
  intro fuel
  induction fuel with
  | zero => intro k fs stem suffix t h; cases h
  | succ fuel ih =>
    intro k fs stem suffix t h
    unfold findFreeName at h
    split at h
    · exact ih (k + 1) h
    · rename_i hcon
      cases h
      simpa using hcon

theorem resolveTarget_not_mem {fs : List (List Char)} {n t : List Char}
    (h : resolveTarget fs n = some t) : fs.contains t = false := by
  unfold resolveTarget at h
  split at h
  · exact findFreeName_not_mem (fs.length + 1) 1 h
  · rename_i hcon
    cases h
    simpa using hcon

theorem rename_item_target_free {fs : List (List Char)} {o n t : List Char} {d : Bool}
    {r : List (List Char)} (h : rename_item fs o n d = (some t, r)) :
    fs.contains t = false := by
  unfold rename_item at h
  split at h
  · cases h
  · split at h
    · cases h
    · rename_i t' htgt
      split at h
      · cases h
        exact resolveTarget_not_mem htgt
      · cases h
        exact resolveTarget_not_mem htgt

theorem processItems_live_invariant (dict : List (List Char × List Char))
    (tr : List Char → List Char) :
    ∀ (items fs : List (List Char)), items.Nodup → fs.Nodup →
      (∀ x ∈ items, x ∈ fs) →
      (renTargets (processItems dict tr false items fs).1).Nodup ∧
      (processItems dict tr false items fs).2.1.Nodup ∧
      (∀ x ∈ fs, x ∉ items →
        x ∈ (processItems dict tr false items fs).2.1 ∧
        x ∉ renTargets (processItems dict tr false items fs).1) := by
  intro items
  induction items with
  | nil =>
    intro fs _ hfs _
    refine ⟨List.nodup_nil, hfs, ?_⟩
    intro x hx _
    exact ⟨hx, by simp [renTargets, processItems]⟩
  | cons item rest ih =>
    intro fs hnd hfs hsub
    have hitem : item ∈ fs := hsub item (List.mem_cons_self _ _)
    have hcon : fs.contains item = true := by simpa using hitem
    have hndr : rest.Nodup := (List.nodup_cons.mp hnd).2
    have hni : item ∉ rest := (List.nodup_cons.mp hnd).1
    have hsub' : ∀ x ∈ rest, x ∈ fs := fun x hx => hsub x (List.mem_cons_of_mem _ hx)
    by_cases hn : (item == translate_name dict tr item) = true
    · -- unchanged name: nothing happens
      have heq : processItems dict tr false (item :: rest) fs =
          (ItemResult.unchanged item :: (processItems dict tr false rest fs).1,
            (processItems dict tr false rest fs).2) := by
        simp [processItems, hcon, hitem, hn]
      rw [heq]
      obtain ⟨h1, h2, h3⟩ := ih fs hndr hfs hsub'
      refine ⟨by simpa [renTargets] using h1, h2, ?_⟩
      intro x hx hxni
      have hxr : x ∉ rest := fun hc => hxni (List.mem_cons_of_mem _ hc)
      obtain ⟨ha, hb⟩ := h3 x hx hxr
      exact ⟨ha, by simpa [renTargets] using hb⟩
    · -- name changed: rename_item runs
      have hn' : (item == translate_name dict tr item) = false := by simpa using hn
      rcases hres : resolveTarget fs (translate_name dict tr item) with _ | t
      · -- model fuel exhausted: filesystem unchanged
        have heq : processItems dict tr false (item :: rest) fs =
            (ItemResult.stuck item :: (processItems dict tr false rest fs).1,
              (processItems dict tr false rest fs).2.1,
              (processItems dict tr false rest fs).2.2 + 1) := by
          simp [processItems, rename_item, hcon, hitem, hn', hres]
        rw [heq]
        obtain ⟨h1, h2, h3⟩ := ih fs hndr hfs hsub'
        refine ⟨by simpa [renTargets] using h1, h2, ?_⟩
        intro x hx hxni
        have hxr : x ∉ rest := fun hc => hxni (List.mem_cons_of_mem _ hc)
        obtain ⟨ha, hb⟩ := h3 x hx hxr
        exact ⟨ha, by simpa [renTargets] using hb⟩
      · -- renamed to the fresh target t
        have hfree : fs.contains t = false := resolveTarget_not_mem hres
        have htnotfs : t ∉ fs := by
          intro hc
          rw [(by simpa using hc : fs.contains t = true)] at hfree
          cases hfree
        have heq : processItems dict tr false (item :: rest) fs =
            (ItemResult.renamed item t ::
                (processItems dict tr false rest (t :: fs.erase item)).1,
              (processItems dict tr false rest (t :: fs.erase item)).2.1,
              (processItems dict tr false rest (t :: fs.erase item)).2.2 + 1) := by
          simp [processItems, rename_item, hcon, hitem, hn', hres]
        have hfs1nd : (t :: fs.erase item).Nodup := by
          refine List.nodup_cons.mpr ⟨?_, hfs.erase item⟩
          intro hc
          exact htnotfs (List.erase_subset item fs hc)
        have hsub1 : ∀ x ∈ rest, x ∈ t :: fs.erase item := by
          intro x hx
          have hxf : x ∈ fs := hsub' x hx
          have hxne : x ≠ item := fun hc => hni (hc ▸ hx)
          exact List.mem_cons_of_mem _ ((List.mem_erase_of_ne hxne).mpr hxf)
        obtain ⟨h1, h2, h3⟩ := ih (t :: fs.erase item) hndr hfs1nd hsub1
        have htrest : t ∉ rest := fun hc => htnotfs (hsub' t hc)
        obtain ⟨htin, htnt⟩ := h3 t (List.mem_cons_self _ _) htrest
        rw [heq]
        refine ⟨?_, h2, ?_⟩
        · simp only [renTargets]
          exact List.nodup_cons.mpr ⟨htnt, h1⟩
        · intro x hx hxni
          have hxne : x ≠ item := fun hc => hxni (hc ▸ List.mem_cons_self _ _)
          have hxr : x ∉ rest := fun hc => hxni (List.mem_cons_of_mem _ hc)
          have hxfs1 : x ∈ t :: fs.erase item :=
            List.mem_cons_of_mem _ ((List.mem_erase_of_ne hxne).mpr hx)
          obtain ⟨ha, hb⟩ := h3 x hxfs1 hxr
          refine ⟨ha, ?_⟩
          simp only [renTargets, List.mem_cons]
          rintro (rfl | hc)
          · exact htnotfs hx
          · exact hb hc
/-- C4, amended: in a live run over distinct candidates of one parent
directory, no two renames land on the same final path — every resolved
target was unoccupied when its rename executed, and the applied targets
are pairwise distinct; the `_<counter>` loop starts at 1 and re-checks
existence until free.  In dry-run mode, however, the filesystem is
never mutated, so two Simulated candidates can resolve to the *same*
final path (see the counterexample); the original claim holds only for
the live (`Applied`) case. -/
theorem claim_C4 (dict : List (List Char × List Char)) (tr : List Char → List Char)
    (items fs : List (List Char)) (h1 : items.Nodup) (h2 : fs.Nodup)
    (h3 : ∀ x ∈ items, x ∈ fs) :
    (renTargets (processItems dict tr false items fs).1).Nodup ∧
    (∀ (g : List (List Char)) (o n t : List Char) (d : Bool) (r : List (List Char)),
      rename_item g o n d = (some t, r) → g.contains t = false) :=
  ⟨(processItems_live_invariant dict tr items fs h1 h2 h3).1,
    fun _ _ _ _ _ _ h => rename_item_target_free h⟩

/-- C4 witness: a live run over the sibling candidates 煤 and 煤矿 (both
of which translate to Coal) produces the distinct targets Coal and
Coal_1. -/
theorem claim_C4_witness :
    (["煤".toList, "煤矿".toList].Nodup ∧
      (["煤".toList, "煤矿".toList] : List (List Char)).Nodup ∧
      (∀ x ∈ ["煤".toList, "煤矿".toList], x ∈ ["煤".toList, "煤矿".toList])) ∧
    ((renTargets (processItems dspDict (fun _ => [])
        false ["煤".toList, "煤矿".toList] ["煤".toList, "煤矿".toList]).1).Nodup ∧
      (∀ (g : List (List Char)) (o n t : List Char) (d : Bool) (r : List (List Char)),
        rename_item g o n d = (some t, r) → g.contains t = false)) :=
  ⟨⟨by decide, by decide, by decide⟩,
    claim_C4 dspDict (fun _ => []) ["煤".toList, "煤矿".toList]
      ["煤".toList, "煤矿".toList] (by decide) (by decide) (by decide)⟩

/-- C4 counterexample for the dry-run half of the claim: the sibling
candidates 其它 and 其他 both resolve to Other; with `--dry-run` no
rename is executed, the existence re-check sees an unchanged directory,
and both Simulated results target the same final path Other. -/
theorem claim_C4_cx :
    (processItems dspDict (fun _ => []) true ["其它".toList, "其他".toList]
        ["其它".toList, "其他".toList]).1 =
      [ItemResult.renamed ("其它".toList) ("Other".toList),
        ItemResult.renamed ("其他".toList) ("Other".toList)] ∧
    ¬(renTargets (processItems dspDict (fun _ => []) true ["其它".toList, "其他".toList]
        ["其它".toList, "其他".toList]).1).Nodup := by
  constructor
  · decide
  · decide

/-! ### Error propagation in the candidate loop (claim C3) -/

/-- C3, amended: per-candidate errors are *not* caught at the candidate
boundary — the source has no handler inside the loop, so a failing
translation for one candidate propagates out of `translate_directory`
and aborts the whole run; the remaining candidates are never processed
and no summary is produced.  (The failing candidate itself is not
partially renamed, since the exception is raised before `rename_item`.)
Only the invalid-root check in `main` aborts before any work. -/
theorem claim_C3 (dict : List (List Char × List Char))
    (tr : List Char → Except Unit (List Char)) (item : List Char)
    (rest fs : List (List Char)) (e : Unit)
    (h1 : fs.contains item = true)
    (h2 : translate_nameE dict tr item = Except.error e) :
    processItemsE dict tr false (item :: rest) fs = Except.error e := by
  unfold processItemsE
  rw [if_pos h1, h2]
  rfl

/-- C3 witness: with a translator failing on the run 仓库, a run whose
first candidate is 仓库 aborts with the error. -/
theorem claim_C3_witness :
    ((["仓库".toList, "煤".toList] : List (List Char)).contains ("仓库".toList) = true ∧
      translate_nameE dspDict
        (fun s => if s == "仓库".toList then Except.error () else Except.ok ("X".toList))
        ("仓库".toList) = Except.error ()) ∧
    processItemsE dspDict
      (fun s => if s == "仓库".toList then Except.error () else Except.ok ("X".toList))
      false ["仓库".toList, "煤".toList] ["仓库".toList, "煤".toList] = Except.error () :=
  ⟨⟨by decide, by rfl⟩,
    claim_C3 dspDict
      (fun s => if s == "仓库".toList then Except.error () else Except.ok ("X".toList))
      ("仓库".toList) ["煤".toList] ["仓库".toList, "煤".toList] () (by decide) (by rfl)⟩

/-- C3 counterexample to the claim as stated: the same failing
translator aborts the two-candidate run (no per-candidate recovery, the
second candidate is never reached), although the second candidate alone
processes fine — so errors are not isolated to the candidate and
processing of the remaining candidates does not continue. -/
theorem claim_C3_cx :
    processItemsE dspDict
        (fun s => if s == "仓库".toList then Except.error () else Except.ok ("X".toList))
        false ["仓库".toList, "煤".toList] ["仓库".toList, "煤".toList] =
      Except.error () ∧
    processItemsE dspDict
        (fun s => if s == "仓库".toList then Except.error () else Except.ok ("X".toList))
        false ["煤".toList] ["煤".toList] =
      Except.ok ([ItemResult.renamed ("煤".toList) ("Coal".toList)], ["Coal".toList], 1) := by
  constructor
  · rfl
  · rfl

/-! ### Dry-run runs never touch the filesystem (claim C9) -/

theorem filter_cons_len_pos {α : Type} (f : α → Bool) (a : α) (l : List α)
    (h : f a = true) :
    (List.filter f (a :: l)).length = (List.filter f l).length + 1 := by
  simp [List.filter_cons, h]

theorem filter_cons_len_neg {α : Type} (f : α → Bool) (a : α) (l : List α)
    (h : f a = false) :
    (List.filter f (a :: l)).length = (List.filter f l).length := by
  simp [List.filter_cons, h]

/-- C9: a dry run over any pre-collected candidate list performs zero
filesystem mutations — the final filesystem is exactly the initial one —
while still resolving every candidate's name, and the reported count is
the number of existing candidates whose resolved name differs (the
"would rename" total). -/
theorem claim_C9 (dict : List (List Char × List Char)) (tr : List Char → List Char)
    (items fs : List (List (List Char))) :
    processPaths dict tr true items fs =
      (fs, (items.filter (fun p => fs.contains p &&
        !(p.getLastD [] == translate_name dict tr (p.getLastD [])))).length) := by
  induction items with
  | nil => rfl
  | cons p rest ih =>
    by_cases hc : p ∈ fs
    · have hcb : fs.contains p = true := by simpa using hc
      by_cases hn : p.getLastD [] = translate_name dict tr (p.getLastD [])
      · have hnb : (p.getLastD [] == translate_name dict tr (p.getLastD [])) = true :=
          beq_iff_eq.mpr hn
        have hcond : (fs.contains p &&
            !(p.getLastD [] == translate_name dict tr (p.getLastD []))) = false := by
          rw [hcb, hnb]
          rfl
        simp only [processPaths]
        rw [if_pos hcb, if_pos hnb, ih]
        rw [filter_cons_len_neg
          (fun q => fs.contains q && !(q.getLastD [] == translate_name dict tr (q.getLastD [])))
          p rest hcond]
      · have hnb : (p.getLastD [] == translate_name dict tr (p.getLastD [])) = false := by
          simpa using hn
        have hn2 : ¬p.getLast?.getD [] = translate_name dict tr (p.getLast?.getD []) := by
          simpa using hn
        rcases hres : resolveTargetPath fs p.dropLast (translate_name dict tr (p.getLastD []))
          with _ | t
        · simp only [processPaths]
          rw [if_pos hcb, if_neg (by rw [hnb]; simp), hres]
          simp [ih, List.filter_cons, hc, hn2]
        · simp only [processPaths]
          rw [if_pos hcb, if_neg (by rw [hnb]; simp), hres]
          simp [ih, List.filter_cons, hc, hn2]
    · have hcb : fs.contains p = false := by simpa using hc
      simp only [processPaths]
      rw [if_neg (by rw [hcb]; simp)]
      simp [ih, List.filter_cons, hc]
/-! ### Bottom-up candidate ordering of the tree scan (claim C8) -/

theorem mem_namesOf {ts : List FSTree} {t : FSTree} (h : t ∈ ts) :
    FSTree.name t ∈ namesOf ts := by
  induction ts with
  | nil => cases h
  | cons u ts ih =>
    rcases List.mem_cons.mp h with rfl | h'
    · exact List.mem_cons_self _ _
    · exact List.mem_cons_of_mem _ (ih h')

mutual

theorem walkTree_path_ext : ∀ (p : List (List Char)) (t : FSTree),
    ∀ tri ∈ walkTree p t, (p ++ [FSTree.name t]) <+: tri.1 ∧ p.length < tri.1.length
  | p, FSTree.file n => by
    intro tri h
    cases h
  | p, FSTree.dir n cs => by
    intro tri h
    rw [walkTree] at h
    rcases List.mem_append.mp h with h' | h'
    · obtain ⟨t', _, hpre, hlen⟩ := walkTrees_path_ext (p ++ [n]) cs tri h'
      constructor
      · have h1 : (p ++ [n]) <+: (p ++ [n]) ++ [FSTree.name t'] := List.prefix_append _ _
        have h2 := h1.trans hpre
        simpa [FSTree.name] using h2
      · simp only [List.length_append] at hlen
        omega
    · have h'' : tri = (p ++ [n], childDirNames cs, childFileNames cs) := by simpa using h'
      subst h''
      exact ⟨by simp [FSTree.name], by simp⟩

theorem walkTrees_path_ext : ∀ (p : List (List Char)) (ts : List FSTree),
    ∀ tri ∈ walkTrees p ts,
      ∃ t' ∈ ts, (p ++ [FSTree.name t']) <+: tri.1 ∧ p.length < tri.1.length
  | p, [] => by
    intro tri h
    cases h
  | p, t :: ts => by
    intro tri h
    rw [walkTrees] at h
    rcases List.mem_append.mp h with h' | h'
    · obtain ⟨hpre, hlen⟩ := walkTree_path_ext p t tri h'
      exact ⟨t, List.mem_cons_self _ _, hpre, hlen⟩
    · obtain ⟨t', ht', hx⟩ := walkTrees_path_ext p ts tri h'
      exact ⟨t', List.mem_cons_of_mem _ ht', hx⟩

end

theorem candsOfTriple_path (tri : List (List Char) × List (List Char) × List (List Char)) :
    ∀ q ∈ candsOfTriple tri, tri.1 <+: q ∧ q.length = tri.1.length + 1 := by
  intro q h
  unfold candsOfTriple at h
  split at h
  · cases h
  · rcases List.mem_append.mp h with h' | h' <;>
    · obtain ⟨x, _, rfl⟩ := List.mem_map.mp h'
      exact ⟨List.prefix_append _ _, by simp⟩

theorem walkTree_cand_path (p : List (List Char)) (t : FSTree) :
    ∀ q ∈ (walkTree p t).flatMap candsOfTriple,
      (p ++ [FSTree.name t]) <+: q ∧ p.length + 2 ≤ q.length := by
  intro q h
  obtain ⟨tri, htri, hq⟩ := List.mem_flatMap.mp h
  obtain ⟨hpre1, hlen1⟩ := walkTree_path_ext p t tri htri
  obtain ⟨hpre2, hlen2⟩ := candsOfTriple_path tri q hq
  exact ⟨hpre1.trans hpre2, by omega⟩

theorem walkTrees_cand_path (p : List (List Char)) (ts : List FSTree) :
    ∀ q ∈ (walkTrees p ts).flatMap candsOfTriple,
      ∃ t' ∈ ts, (p ++ [FSTree.name t']) <+: q ∧ p.length + 2 ≤ q.length := by
  intro q h
  obtain ⟨tri, htri, hq⟩ := List.mem_flatMap.mp h
  obtain ⟨t', ht', hpre1, hlen1⟩ := walkTrees_path_ext p ts tri htri
  obtain ⟨hpre2, hlen2⟩ := candsOfTriple_path tri q hq
  exact ⟨t', ht', hpre1.trans hpre2, by omega⟩

mutual

theorem walkTree_cands_pairwise : ∀ (p : List (List Char)) (t : FSTree),
    wfTree t = true → ((walkTree p t).flatMap candsOfTriple).Pairwise RNoAnc
  | p, FSTree.file n => by
    intro _
    simp [walkTree]
  | p, FSTree.dir n cs => by
    intro hwf
    obtain ⟨hnd, hwfs⟩ : (namesOf cs).Nodup ∧ wfTrees cs = true := by
      simpa [wfTree] using hwf
    rw [walkTree, List.flatMap_append, List.pairwise_append]
    refine ⟨walkTrees_cands_pairwise (p ++ [n]) cs hnd hwfs, ?_, ?_⟩
    · apply List.pairwise_of_forall_mem_list
      intro a ha b hb
      have ha' : a ∈ candsOfTriple (p ++ [n], childDirNames cs, childFileNames cs) := by
        simpa using ha
      have hb' : b ∈ candsOfTriple (p ++ [n], childDirNames cs, childFileNames cs) := by
        simpa using hb
      obtain ⟨_, hlena⟩ := candsOfTriple_path _ a ha'
      obtain ⟨_, hlenb⟩ := candsOfTriple_path _ b hb'
      intro hcon
      rcases hcon with ⟨_, hlt⟩
      omega
    · intro a ha b hb
      obtain ⟨t', _, _, hlena⟩ := walkTrees_cand_path (p ++ [n]) cs a ha
      have hb' : b ∈ candsOfTriple (p ++ [n], childDirNames cs, childFileNames cs) := by
        simpa using hb
      obtain ⟨_, hlenb⟩ := candsOfTriple_path _ b hb'
      intro hcon
      rcases hcon with ⟨hab, hlt⟩
      simp only [List.length_append, List.length_singleton] at hlena hlenb
      omega

theorem walkTrees_cands_pairwise : ∀ (p : List (List Char)) (ts : List FSTree),
    (namesOf ts).Nodup → wfTrees ts = true →
    ((walkTrees p ts).flatMap candsOfTriple).Pairwise RNoAnc
  | p, [] => by
    intro _ _
    simp [walkTrees]
  | p, t :: ts => by
    intro hnd hwfs
    obtain ⟨hwt, hwts⟩ : wfTree t = true ∧ wfTrees ts = true := by
      simpa [wfTrees] using hwfs
    have hnd2 := List.nodup_cons.mp (show (FSTree.name t :: namesOf ts).Nodup from hnd)
    rw [walkTrees, List.flatMap_append, List.pairwise_append]
    refine ⟨walkTree_cands_pairwise p t hwt,
      walkTrees_cands_pairwise p ts hnd2.2 hwts, ?_⟩
    intro a ha b hb
    obtain ⟨hpa, _⟩ := walkTree_cand_path p t a ha
    obtain ⟨t', ht', hpb, _⟩ := walkTrees_cand_path p ts b hb
    intro hcon
    rcases hcon with ⟨hab, _⟩
    have hpb2 : (p ++ [FSTree.name t]) <+: b := hpa.trans hab
    have heq : p ++ [FSTree.name t] = p ++ [FSTree.name t'] := by
      have h1 := List.prefix_of_prefix_length_le hpb2 hpb (by simp)
      exact h1.eq_of_length (by simp)
    have hname : FSTree.name t = FSTree.name t' := by
      have h2 := List.append_cancel_left heq
      simpa using h2
    exact hnd2.1 (hname ▸ mem_namesOf ht')

end

/-- C8: for any well-formed tree (distinct sibling names, as on a real
filesystem), the candidate list collected by the bottom-up walk never
places a path before one of its descendants: whenever one candidate is
a proper path prefix (ancestor) of another, the descendant appears, and
is therefore processed, strictly earlier in the list. -/
theorem claim_C8 (t : FSTree) (hwf : wfTree t = true) :
    (candidates t).Pairwise RNoAnc := by
  unfold candidates
  exact walkTree_cands_pairwise [] t hwf

/-- C8 witness: a directory 中 nested inside a directory 名 inside the
root; the candidate list is well-defined, bottom-up, and the pairwise
no-ancestor-first property holds. -/
theorem claim_C8_witness :
    wfTree (FSTree.dir ("r".toList)
      [FSTree.dir ("名".toList) [FSTree.dir ("中".toList) []]]) = true ∧
    (candidates (FSTree.dir ("r".toList)
      [FSTree.dir ("名".toList) [FSTree.dir ("中".toList) []]])).Pairwise RNoAnc :=
  ⟨by decide,
    claim_C8 (FSTree.dir ("r".toList)
      [FSTree.dir ("名".toList) [FSTree.dir ("中".toList) []]]) (by decide)⟩

end TranslateNames
